import Mathlib

/-! FreeRTOS+CLI command interpreter (`mid_cli.c`).

A shallow embedding of the command registry, the dispatcher
`MidCLI_ProcessCommand`, the tokenizer `MidCLI_GetParameter`, the parameter
counter `prvGetNumberOfParameters` and the built-in help handler
`prvHelpCommand`, followed by theorems about them.

Representation choices.

* A C string is the list of its bytes before the terminating NUL; the end of
  the list is the terminator.  `NoNul s` says that the list really is the
  content of a C string (no byte of it is 0).  Strings are far shorter than
  2^31 bytes on the target, so lengths and offsets are natural numbers.
* Reading the input line at an index past its terminator is an out-of-bounds
  read; the byte found there is given by an arbitrary function `beyond`.
* A pointer to a list item is an address `Option Nat` (`none` is `NULL`).  The
  list items live in `CLI_State.items`; address 0 is the static item
  `xRegisteredCommands`, and `pvPortMalloc` hands out the next free address.
  A loop over the list takes fuel; `none` is a loop that does not end or a read
  through a dangling pointer, and the theorems show that neither happens in a
  well-formed state.
* A command interpreter is a function pointer: either the static
  `prvHelpCommand` of this file or the address of an application handler,
  whose behaviour is an arbitrary function `app` over an application state.
  Application handlers read and write the write buffer and their own state;
  they do not call back into this file.
* The write buffer is the memory starting at `pcWriteBuffer`, a function from
  offsets to bytes.
* `BaseType_t` values are integers; `int8_t` arithmetic wraps explicitly.
* A call of `MidCLI_ProcessCommand` records what it does as a list of events
  (items examined by the search, parameter counts made, handlers called), so
  that statements about what is and is not called can be made.
-/

namespace MidCLI

/-! ## Constants and types of `mid_CLI.h` / FreeRTOS -/

/-- Modelled from the spec: the FreeRTOS constant `pdFALSE` of the absent
headers, the "false" continuation flag. -/
def pdFALSE : Int := 0

/-- Modelled from the spec: the FreeRTOS constant `pdTRUE` of the absent
headers, the "true" continuation flag. -/
def pdTRUE : Int := 1

/-- Modelled from the spec: the FreeRTOS constant `pdPASS` of the absent
headers (success of a registration). -/
def pdPASS : Int := 1

/-- Modelled from the spec: the FreeRTOS constant `pdFAIL` of the absent
headers (failure of a registration). -/
def pdFAIL : Int := 0

/-- The space character, `' '` in the source. -/
def SPACE : Nat := 32

/-- A list of bytes is the content of a C string: it holds no NUL. -/
def NoNul (s : List Nat) : Prop := ∀ b ∈ s, b ≠ 0

instance (s : List Nat) : Decidable (NoNul s) := by
  unfold NoNul; infer_instance

/-- Modelled from the spec: the type `pdCOMMAND_LINE_CALLBACK` of the absent
header `mid_CLI.h`, a pointer to a handler
`(outputBuffer, capacity, rawCommandLine) -> continuationFlag`.  The pointer is
either the static function `prvHelpCommand` or the address of an application
handler. -/
inductive pdCOMMAND_LINE_CALLBACK where
  | prvHelpCommand : pdCOMMAND_LINE_CALLBACK
  | app (addr : Nat) : pdCOMMAND_LINE_CALLBACK
  deriving DecidableEq, Repr

/-- Modelled from the spec: the struct `CLI_Command_Definition_t` of the absent
header `mid_CLI.h` (name, help text, handler, expected parameter count), with
the field names and order the source uses for `xHelpCommand`. -/
structure CLI_Command_Definition_t where
  pcCommand : List Nat
  pcHelpString : List Nat
  pxCommandInterpreter : pdCOMMAND_LINE_CALLBACK
  cExpectedNumberOfParameters : Int
  deriving DecidableEq, Repr

/-- The struct `xCOMMAND_INPUT_LIST`: one node of the singly linked registry. -/
structure CLI_Definition_List_Item_t where
  pxCommandLineDefinition : CLI_Command_Definition_t
  pxNext : Option Nat
  deriving DecidableEq, Repr

/-! ## C library functions -/

/-- The bytes of a string literal. -/
def bytes (s : String) : List Nat := s.toList.map Char.toNat

/-- `strlen`: the number of bytes before the terminator. -/
def strlen (s : List Nat) : Nat := s.length

/-- The byte at index `i` of a C string in memory: its content, then the
terminator, then whatever memory follows. -/
def readAt (s : List Nat) (beyond : Nat → Nat) (i : Nat) : Nat :=
  if i < s.length then s.getD i 0
  else if i = s.length then 0
  else beyond (i - s.length - 1)

/-- `strncmp (s1, s2, n)` on two memory reads, comparing from index `i`: the
difference of the first differing bytes, 0 when `n` bytes agree or both
strings end. -/
def strncmpFrom (s1 s2 : Nat → Nat) (i : Nat) : Nat → Int
  | 0 => 0
  | n + 1 =>
    if s1 i ≠ s2 i then (s1 i : Int) - (s2 i : Int)
    else if s1 i = 0 then 0
    else strncmpFrom s1 s2 (i + 1) n

/-- `strncmp`. -/
def strncmp (s1 s2 : Nat → Nat) (n : Nat) : Int := strncmpFrom s1 s2 0 n

/-- `strncpy (dest, src, n)`: exactly `n` bytes of `dest` are written, the
bytes of `src` and then NULs; the bytes from `n` on are left alone. -/
def strncpy (dest : Nat → Nat) (src : List Nat) (n : Nat) : Nat → Nat :=
  fun i => if i < n then src.getD i 0 else dest i

/-- Conversion of an `int` to `int8_t`, as `cParameters++` and `cParameters--`
make it: the value modulo 256 in the range -128 .. 127 (the behaviour of the
compilers for the target; the C standard leaves it to the implementation). -/
def wrapInt8 (x : Int) : Int := (x + 128) % 256 - 128

/-! ## `prvGetNumberOfParameters` -/

/-- The `while` loop of `prvGetNumberOfParameters`: the state is the counter
`cParameters` and the flag `xLastCharacterWasSpace`. -/
def prvGetNumberOfParameters.loop : List Nat → Int → Int → Int × Int
  | [], cParameters, xLastCharacterWasSpace => (cParameters, xLastCharacterWasSpace)
  | c :: rest, cParameters, xLastCharacterWasSpace =>
    if c = SPACE then
      if xLastCharacterWasSpace ≠ pdTRUE then
        prvGetNumberOfParameters.loop rest (wrapInt8 (cParameters + 1)) pdTRUE
      else
        prvGetNumberOfParameters.loop rest cParameters xLastCharacterWasSpace
    else
      prvGetNumberOfParameters.loop rest cParameters pdFALSE

/-- `prvGetNumberOfParameters`: the number of parameters that follow the
command name, as an `int8_t`. -/
def prvGetNumberOfParameters (pcCommandString : List Nat) : Int :=
  let r := prvGetNumberOfParameters.loop pcCommandString 0 pdFALSE
  if r.2 = pdTRUE then wrapInt8 (r.1 - 1) else r.1

/-! ## `MidCLI_GetParameter` -/

/-- The loop `while (*p != 0 && *p != ' ') p++`: a pointer is the rest of the
string together with its offset from the start. -/
def skipWord : List Nat → Nat → List Nat × Nat
  | [], p => ([], p)
  | c :: rest, p => if c ≠ SPACE then skipWord rest (p + 1) else (c :: rest, p)

/-- The loop `while (*p != 0 && *p == ' ') p++`. -/
def skipSpaces : List Nat → Nat → List Nat × Nat
  | [], p => ([], p)
  | c :: rest, p => if c = SPACE then skipSpaces rest (p + 1) else (c :: rest, p)

/-- The loop that measures the parameter:
`while (*p != 0 && *p != ' ') { (*pxParameterStringLength)++; p++; }`. -/
def measureWord : List Nat → Nat → Nat
  | [], len => len
  | c :: rest, len => if c ≠ SPACE then measureWord rest (len + 1) else len

/-- The outer `while (uxParametersFound < uxWantedParameter)` loop of
`MidCLI_GetParameter`; `k` is `uxWantedParameter - uxParametersFound`.  The
result is `pcReturn` (an offset into the command string, `none` for `NULL`)
and `*pxParameterStringLength`. -/
def MidCLI_GetParameter.loop : Nat → List Nat → Nat → Option Nat × Nat
  | 0, _, _ => (none, 0)
  | k + 1, s, p =>
    let w := skipWord s p
    let n := skipSpaces w.1 w.2
    match n.1 with
    | [] => (none, 0)
    | c :: rest =>
      if k = 0 then
        let len := measureWord (c :: rest) 0
        if len = 0 then (none, len) else (some n.2, len)
      else
        MidCLI_GetParameter.loop k (c :: rest) n.2

/-- `MidCLI_GetParameter`. -/
def MidCLI_GetParameter (pcCommandString : List Nat) (uxWantedParameter : Nat) :
    Option Nat × Nat :=
  MidCLI_GetParameter.loop uxWantedParameter pcCommandString 0

/-! ## Tokens, as the specification defines them -/

/-- The tokens of a line with their positions, `(start, length)`: the maximal
runs of non-space characters.  `p` is the offset of the next character and
`cur` the run being read, if any. -/
def tokensFrom : List Nat → Nat → Option (Nat × Nat) → List (Nat × Nat)
  | [], _, none => []
  | [], _, some r => [r]
  | c :: rest, p, none =>
    if c = SPACE then tokensFrom rest (p + 1) none
    else tokensFrom rest (p + 1) (some (p, 1))
  | c :: rest, p, some r =>
    if c = SPACE then r :: tokensFrom rest (p + 1) none
    else tokensFrom rest (p + 1) (some (r.1, r.2 + 1))

/-- The tokens of a line, in order, each with its start offset and length. -/
def tokens (s : List Nat) : List (Nat × Nat) := tokensFrom s 0 none

/-- A run of `t.2` characters from offset `t.1` is a token of the line `s`: it
is not empty, lies in the line, holds no space, and is maximal (it starts the
line or follows a space, and ends the line or precedes a space). -/
def IsToken (s : List Nat) (t : Nat × Nat) : Prop :=
  0 < t.2 ∧ t.1 + t.2 ≤ s.length ∧
  (∀ j, t.1 ≤ j → j < t.1 + t.2 → s[j]? ≠ some SPACE) ∧
  (t.1 = 0 ∨ s[t.1 - 1]? = some SPACE) ∧
  (t.1 + t.2 = s.length ∨ s[t.1 + t.2]? = some SPACE)

/-- A name matches an input line: the name is a byte-prefix of the line and is
followed in it by a space or by the end of the line. -/
def Matches (name input : List Nat) : Prop :=
  name <+: input ∧ (input[name.length]? = some SPACE ∨ name.length = input.length)

instance (name input : List Nat) : Decidable (Matches name input) := by
  unfold Matches; infer_instance

/-- Entry `a` of a registry is the first one, in registration order, whose name
matches the input line. -/
def IsFirstMatch (reg : List CLI_Command_Definition_t) (input : List Nat) (a : Nat) : Prop :=
  (∃ d ∈ reg[a]?, Matches d.pcCommand input) ∧
  ∀ b, b < a → ∀ e ∈ reg[b]?, ¬ Matches e.pcCommand input

instance (reg : List CLI_Command_Definition_t) (input : List Nat) (a : Nat) :
    Decidable (IsFirstMatch reg input a) := by
  unfold IsFirstMatch; infer_instance

/-! ## State -/

/-- The static variables of the file, the memory of the list items and the
state of the application the handlers belong to. -/
structure CLI_State (σ : Type) where
  /-- The memory of the list items: address `a` holds `items[a]`. -/
  items : List CLI_Definition_List_Item_t
  /-- The static `pxLastCommandInList` of `MidCLI_RegisterCommand`. -/
  pxLastCommandInList : Nat
  /-- The static `pxCommand` of `MidCLI_ProcessCommand`. -/
  pxCommand : Option Nat
  /-- The static `pxCommand` of `prvHelpCommand`. -/
  prvHelpCommand_pxCommand : Option Nat
  /-- The state the application handlers work on. -/
  appState : σ

/-- The static `xHelpCommand`. -/
def xHelpCommand : CLI_Command_Definition_t where
  pcCommand := bytes "help"
  pcHelpString := bytes "\r\nhelp:\r\n Lists all the registered commands\r\n\r\n"
  pxCommandInterpreter := pdCOMMAND_LINE_CALLBACK.prvHelpCommand
  cExpectedNumberOfParameters := 0

/-- The static `xRegisteredCommands`, the head of the list, at address 0. -/
def xRegisteredCommands : CLI_Definition_List_Item_t where
  pxCommandLineDefinition := xHelpCommand
  pxNext := none

/-- The state at start-up, from the static initialisers. -/
def initialState {σ : Type} (s0 : σ) : CLI_State σ where
  items := [xRegisteredCommands]
  pxLastCommandInList := 0
  pxCommand := none
  prvHelpCommand_pxCommand := none
  appState := s0

/-- The store `p->pxNext = next` for the item at address `p`. -/
def storeNext (items : List CLI_Definition_List_Item_t) (p : Nat) (next : Option Nat) :
    List CLI_Definition_List_Item_t :=
  match items[p]? with
  | some it => items.set p { it with pxNext := next }
  | none => items

/-- `MidCLI_RegisterCommand` for a non-null definition; `mallocOk` tells whether
`pvPortMalloc` finds memory.  The new item gets the next free address. -/
def MidCLI_RegisterCommand {σ : Type} (st : CLI_State σ)
    (pxCommandToRegister : CLI_Command_Definition_t) (mallocOk : Bool) :
    Int × CLI_State σ :=
  let pxNewListItem : Option Nat := if mallocOk then some st.items.length else none
  match pxNewListItem with
  | none => (pdFAIL, st)
  | some a =>
    let items1 := st.items ++
      [{ pxCommandLineDefinition := pxCommandToRegister, pxNext := none }]
    let items2 := storeNext items1 st.pxLastCommandInList (some a)
    (pdPASS, { st with items := items2, pxLastCommandInList := a })

/-- The commands reached from the item at address `p` by following `pxNext`,
with `fuel` bounding the number of items visited. -/
def listFrom (items : List CLI_Definition_List_Item_t) :
    Nat → Option Nat → List CLI_Command_Definition_t
  | 0, _ => []
  | _ + 1, none => []
  | fuel + 1, some a =>
    match items[a]? with
    | none => []
    | some it => it.pxCommandLineDefinition :: listFrom items fuel it.pxNext

/-- The registry: the commands of the linked list that starts at
`xRegisteredCommands`, in list order. -/
def registry {σ : Type} (st : CLI_State σ) : List CLI_Command_Definition_t :=
  listFrom st.items st.items.length (some 0)

/-- The list items form one chain 0, 1, 2, ... ending at the last address. -/
def ChainOk (items : List CLI_Definition_List_Item_t) : Prop :=
  ∀ a, a < items.length →
    (items[a]?).map (fun it => it.pxNext) =
      some (if a + 1 < items.length then some (a + 1) else none)

instance (items : List CLI_Definition_List_Item_t) : Decidable (ChainOk items) := by
  unfold ChainOk; infer_instance

/-- A pointer is `NULL` or the address of a list item. -/
def ValidPtr (items : List CLI_Definition_List_Item_t) (p : Option Nat) : Prop :=
  match p with
  | none => True
  | some a => a < items.length

instance (items : List CLI_Definition_List_Item_t) (p : Option Nat) :
    Decidable (ValidPtr items p) := by
  unfold ValidPtr; cases p <;> infer_instance

/-- The well-formed states: the list is a chain that starts at the static head
item, `pxLastCommandInList` is its last item, and the two cursors point into
it. -/
def WF {σ : Type} (st : CLI_State σ) : Prop :=
  0 < st.items.length ∧ ChainOk st.items ∧
  st.pxLastCommandInList + 1 = st.items.length ∧
  ValidPtr st.items st.pxCommand ∧ ValidPtr st.items st.prvHelpCommand_pxCommand

instance {σ : Type} (st : CLI_State σ) : Decidable (WF st) := by
  unfold WF; infer_instance

/-! ## The dispatcher -/

/-- What a call of `MidCLI_ProcessCommand` does, in order. -/
inductive CLI_Event where
  /-- The scan compares the input with the name of the item at this address. -/
  | examined (item : Nat) : CLI_Event
  /-- `prvGetNumberOfParameters` is called for the check of this item. -/
  | counted (item : Nat) : CLI_Event
  /-- The interpreter of this item is called with these arguments. -/
  | invoked (item : Nat) (pcWriteBuffer : Nat → Nat) (xWriteBufferLen : Nat)
      (pcCommandString : List Nat) : CLI_Event

/-- An event is a call of a handler. -/
def CLI_Event.isInvoked : CLI_Event → Bool
  | CLI_Event.invoked _ _ _ _ => true
  | _ => false

/-- The item whose handler an event calls, if the event is a call. -/
def CLI_Event.invokedItem : CLI_Event → Option Nat
  | CLI_Event.invoked item _ _ _ => some item
  | _ => none

/-- The outcome of a call of `MidCLI_ProcessCommand`. -/
structure CLI_Result (σ : Type) where
  xReturn : Int
  pcWriteBuffer : Nat → Nat
  state : CLI_State σ
  events : List CLI_Event

/-- The behaviour of the application handlers: the handler at an address maps
the application state, the write buffer, its length and the command string to
its return value, the new buffer and the new application state. -/
abbrev AppHandlers (σ : Type) : Type :=
  Nat → σ → (Nat → Nat) → Nat → List Nat → Int × (Nat → Nat) × σ

/-- The text of the parameter-count error. -/
def msgIncorrectParameters : List Nat :=
  bytes "Incorrect command parameter(s).  Enter \x22help\x22 to view a list of available commands.\r\n\r\n"

/-- The text of the not-found error. -/
def msgNotRecognised : List Nat :=
  bytes "Command not recognised.  Enter \x27help\x27 to view a list of available commands.\r\n\r\n"

/-- `prvHelpCommand`: copies the help string of the item under its cursor and
moves the cursor on.  `none` is a read through a dangling pointer. -/
def prvHelpCommand {σ : Type} (st : CLI_State σ) (pcWriteBuffer : Nat → Nat)
    (xWriteBufferLen : Nat) (_pcCommandString : List Nat) :
    Option (Int × (Nat → Nat) × CLI_State σ) :=
  let pxCommand : Nat :=
    match st.prvHelpCommand_pxCommand with
    | none => 0
    | some a => a
  match st.items[pxCommand]? with
  | none => none
  | some item =>
    let buf := strncpy pcWriteBuffer item.pxCommandLineDefinition.pcHelpString xWriteBufferLen
    let pxCommand := item.pxNext
    let xReturn := if pxCommand = none then pdFALSE else pdTRUE
    some (xReturn, buf, { st with prvHelpCommand_pxCommand := pxCommand })

/-- A call through a `pxCommandInterpreter` pointer. -/
def callInterpreter {σ : Type} (app : AppHandlers σ) (st : CLI_State σ)
    (f : pdCOMMAND_LINE_CALLBACK) (pcWriteBuffer : Nat → Nat) (xWriteBufferLen : Nat)
    (pcCommandString : List Nat) : Option (Int × (Nat → Nat) × CLI_State σ) :=
  match f with
  | pdCOMMAND_LINE_CALLBACK.prvHelpCommand =>
    prvHelpCommand st pcWriteBuffer xWriteBufferLen pcCommandString
  | pdCOMMAND_LINE_CALLBACK.app addr =>
    let r := app addr st.appState pcWriteBuffer xWriteBufferLen pcCommandString
    some (r.1, r.2.1, { st with appState := r.2.2 })

/-- The `for` loop of `MidCLI_ProcessCommand` from the item `pxCommand` on.
The result is the final `pxCommand`, `xReturn` and the events; `none` is a
loop that does not end within `fuel` items or reads a dangling pointer. -/
def MidCLI_ProcessCommand.scan (items : List CLI_Definition_List_Item_t)
    (pcCommandInput : List Nat) (beyond : Nat → Nat) :
    Nat → Option Nat → Option (Option Nat × Int × List CLI_Event)
  | 0, _ => none
  | _ + 1, none => some (none, pdTRUE, [])
  | fuel + 1, some a =>
    match items[a]? with
    | none => none
    | some item =>
      let pcRegisteredCommandString := item.pxCommandLineDefinition.pcCommand
      let xCommandStringLength := strlen pcRegisteredCommandString
      if readAt pcCommandInput beyond xCommandStringLength = SPACE
          ∨ readAt pcCommandInput beyond xCommandStringLength = 0 then
        if strncmp (readAt pcCommandInput beyond)
            (fun i => pcRegisteredCommandString.getD i 0) xCommandStringLength = 0 then
          if item.pxCommandLineDefinition.cExpectedNumberOfParameters ≥ 0 then
            if prvGetNumberOfParameters pcCommandInput
                ≠ item.pxCommandLineDefinition.cExpectedNumberOfParameters then
              some (some a, pdFALSE, [CLI_Event.examined a, CLI_Event.counted a])
            else
              some (some a, pdTRUE, [CLI_Event.examined a, CLI_Event.counted a])
          else
            some (some a, pdTRUE, [CLI_Event.examined a])
        else
          (MidCLI_ProcessCommand.scan items pcCommandInput beyond fuel item.pxNext).map
            (fun r => (r.1, r.2.1, CLI_Event.examined a :: r.2.2))
      else
        (MidCLI_ProcessCommand.scan items pcCommandInput beyond fuel item.pxNext).map
          (fun r => (r.1, r.2.1, CLI_Event.examined a :: r.2.2))

/-- The first statement of `MidCLI_ProcessCommand`: when the static `pxCommand`
is `NULL` the list is searched from `xRegisteredCommands`; otherwise nothing
is done and `xReturn` keeps its initial value `pdTRUE`.  The result is
`pxCommand`, `xReturn` and the events. -/
def MidCLI_ProcessCommand.search {σ : Type} (st : CLI_State σ)
    (pcCommandInput : List Nat) (beyond : Nat → Nat) :
    Option (Option Nat × Int × List CLI_Event) :=
  match st.pxCommand with
  | none =>
    MidCLI_ProcessCommand.scan st.items pcCommandInput beyond (st.items.length + 1) (some 0)
  | some a => some (some a, pdTRUE, [])

/-- `MidCLI_ProcessCommand`.  `none` is a call that does not return. -/
def MidCLI_ProcessCommand {σ : Type} (app : AppHandlers σ) (st : CLI_State σ)
    (pcCommandInput : List Nat) (beyond : Nat → Nat) (pcWriteBuffer : Nat → Nat)
    (xWriteBufferLen : Nat) : Option (CLI_Result σ) :=
  match MidCLI_ProcessCommand.search st pcCommandInput beyond with
  | none => none
  | some (none, _, ev) =>
    some { xReturn := pdFALSE
           pcWriteBuffer := strncpy pcWriteBuffer msgNotRecognised xWriteBufferLen
           state := { st with pxCommand := none }
           events := ev }
  | some (some a, xReturn, ev) =>
    if xReturn = pdFALSE then
      some { xReturn := xReturn
             pcWriteBuffer := strncpy pcWriteBuffer msgIncorrectParameters xWriteBufferLen
             state := { st with pxCommand := none }
             events := ev }
    else
      match st.items[a]? with
      | none => none
      | some item =>
        match callInterpreter app { st with pxCommand := some a }
            item.pxCommandLineDefinition.pxCommandInterpreter
            pcWriteBuffer xWriteBufferLen pcCommandInput with
        | none => none
        | some (ret, buf, st1) =>
          some { xReturn := ret
                 pcWriteBuffer := buf
                 state := { st1 with pxCommand := if ret = pdFALSE then none else some a }
                 events := ev ++
                   [CLI_Event.invoked a pcWriteBuffer xWriteBufferLen pcCommandInput] }

/-- The test the scan makes on a name, in the words of the code. -/
def CodeMatch (name input : List Nat) (beyond : Nat → Nat) : Prop :=
  (readAt input beyond (strlen name) = SPACE ∨ readAt input beyond (strlen name) = 0) ∧
  strncmp (readAt input beyond) (fun i => name.getD i 0) (strlen name) = 0

/-- The pointer to the item at address `a`, `NULL` past the end of the list. -/
def ptr (items : List CLI_Definition_List_Item_t) (a : Nat) : Option Nat :=
  if a < items.length then some a else none

/-- What the search of the list from address `a` on has to deliver, as
`pxCommand`, `xReturn` and events `r`: no handler is called; `pxCommand` is
`NULL` when no name from `a` on matches, and otherwise the first item from `a`
on whose name matches, `xReturn` telling whether its parameter count is
accepted. -/
def ScanPost (items : List CLI_Definition_List_Item_t) (input : List Nat) (a : Nat)
    (r : Option Nat × Int × List CLI_Event) : Prop :=
  (∀ e ∈ r.2.2, CLI_Event.isInvoked e = false) ∧
  match r.1 with
  | none =>
    r.2.1 = pdTRUE ∧
    ∀ c, a ≤ c → ∀ e ∈ items[c]?, ¬ Matches e.pxCommandLineDefinition.pcCommand input
  | some b =>
    a ≤ b ∧ ∃ it, items[b]? = some it ∧
      Matches it.pxCommandLineDefinition.pcCommand input ∧
      (∀ c, a ≤ c → c < b → ∀ e ∈ items[c]?,
        ¬ Matches e.pxCommandLineDefinition.pcCommand input) ∧
      r.2.1 = (if it.pxCommandLineDefinition.cExpectedNumberOfParameters ≥ 0 ∧
                  prvGetNumberOfParameters input ≠
                    it.pxCommandLineDefinition.cExpectedNumberOfParameters
               then pdFALSE else pdTRUE)

/-- The handler calls among the events of a call of `MidCLI_ProcessCommand`. -/
def handlerCalls {σ : Type} (r : CLI_Result σ) : List CLI_Event :=
  r.events.filter CLI_Event.isInvoked

/-- Entry `i` of a list of tokens as `MidCLI_GetParameter` reports it: the start
and the length, or `NULL` and 0 when there is no such token. -/
def tokenAt (ts : List (Nat × Nat)) (i : Nat) : Option Nat × Nat :=
  match ts[i]? with
  | some t => (some t.1, t.2)
  | none => (none, 0)

/-- The result of `prvGetNumberOfParameters` when the loop starts with counter
`c` and flag `l`. -/
def countFrom (s : List Nat) (c l : Int) : Int :=
  let r := prvGetNumberOfParameters.loop s c l
  if r.2 = pdTRUE then wrapInt8 (r.1 - 1) else r.1

/-- The values of an `int8_t`. -/
def InInt8 (x : Int) : Prop := -128 ≤ x ∧ x ≤ 127

/-- The number of tokens that the counter of `prvGetNumberOfParameters` stands
for before it is wrapped: all tokens of a line that begins with a space,
all but the first otherwise. -/
def countedTokens (s : List Nat) : Nat :=
  if s.head? = some SPACE then (tokens s).length else (tokens s).length - 1

/-- A list of bytes holds no space. -/
def NoSpace (s : List Nat) : Prop := ∀ b ∈ s, b ≠ SPACE

instance (s : List Nat) : Decidable (NoSpace s) := by
  unfold NoSpace; infer_instance

/-- Consecutive calls of `prvHelpCommand`, one for each buffer, length and
line of `args`; the result is the final state and, for each call, its return
value and the buffer it leaves. -/
def helpRun {σ : Type} (st : CLI_State σ) :
    List ((Nat → Nat) × Nat × List Nat) → Option (CLI_State σ × List (Int × (Nat → Nat)))
  | [] => some (st, [])
  | x :: rest =>
    match prvHelpCommand st x.1 x.2.1 x.2.2 with
    | none => none
    | some r => (helpRun r.2.2 rest).map (fun q => (q.1, (r.1, r.2.1) :: q.2))

/-- The cursor of `prvHelpCommand` that stands for entry `j` of the registry:
`NULL` for the head, the address otherwise. -/
def helpCursor (j : Nat) : Option Nat := if j = 0 then none else some j

/-! ## A small application, for concrete instances -/

/-- Handlers of a small application: every handler copies the command line
into the write buffer and counts the call; the handler at address 1 asks to be
called again. -/
def exampleApp : AppHandlers Nat :=
  fun addr n buf cap input => (if addr = 1 then pdTRUE else pdFALSE, strncpy buf input cap, n + 1)

/-- The command `status`, with any number of parameters. -/
def cmdStatus : CLI_Command_Definition_t where
  pcCommand := bytes "status"
  pcHelpString := bytes "status:\r\n Shows the status\r\n"
  pxCommandInterpreter := pdCOMMAND_LINE_CALLBACK.app 1
  cExpectedNumberOfParameters := -1

/-- The command `move`, with two parameters. -/
def cmdMove : CLI_Command_Definition_t where
  pcCommand := bytes "move"
  pcHelpString := bytes "move x y:\r\n Moves\r\n"
  pxCommandInterpreter := pdCOMMAND_LINE_CALLBACK.app 2
  cExpectedNumberOfParameters := 2

/-- A second command with the name `status`. -/
def cmdStatusAgain : CLI_Command_Definition_t where
  pcCommand := bytes "status"
  pcHelpString := bytes "status, again\r\n"
  pxCommandInterpreter := pdCOMMAND_LINE_CALLBACK.app 3
  cExpectedNumberOfParameters := 0

/-- The state after the registration of `status`, `move` and `status` again. -/
def exampleState : CLI_State Nat :=
  (MidCLI_RegisterCommand
    (MidCLI_RegisterCommand
      (MidCLI_RegisterCommand (initialState 0) cmdStatus true).2 cmdMove true).2
    cmdStatusAgain true).2

/-- A write buffer filled with the byte 255. -/
def exampleBuffer : Nat → Nat := fun _ => 255

/-- The line `move` followed by `n` parameters `a`. -/
def moveLine (n : Nat) : List Nat :=
  bytes "move" ++ (List.replicate n (bytes " a")).flatten

/-- A line of 129 one-letter tokens. -/
def longLine : List Nat := bytes "c" ++ (List.replicate 128 (bytes " a")).flatten

/-- The write buffers, their lengths and the lines of four calls. -/
def exampleArgs : List ((Nat → Nat) × Nat × List Nat) :=
  [(exampleBuffer, 100, bytes "help"), (exampleBuffer, 8, []), (fun _ => 0, 100, bytes "x"),
   (exampleBuffer, 100, [])]

/-- The state after the registration of `status` and `move`. -/
def helpState : CLI_State Nat :=
  (MidCLI_RegisterCommand (MidCLI_RegisterCommand (initialState 0) cmdStatus true).2
    cmdMove true).2

/-! ## The output buffer guard -/

/-- `mid_CliWritePointCheck`: `abs (pCurrent - cOutputBuffer) > 50`, for the
address `cOutputBuffer` of the static output buffer and the address `pCurrent`
of the write cursor.  The difference of two addresses in or near the buffer
fits the `int` that `abs` takes, so it is an integer without wrap-around. -/
def mid_CliWritePointCheck (cOutputBuffer pCurrent : Int) : Bool :=
  decide (Int.natAbs (pCurrent - cOutputBuffer) > 50)

/-! ## Sequences of calls -/

/-- A sequence of calls of `MidCLI_RegisterCommand`, each with a definition and
the success of its allocation. -/
def registerAll {σ : Type} (st : CLI_State σ) :
    List (CLI_Command_Definition_t × Bool) → CLI_State σ
  | [] => st
  | c :: rest => registerAll (MidCLI_RegisterCommand st c.1 c.2).2 rest

/-- A definition that an application can register: its interpreter is a
handler of the application (`prvHelpCommand` and `xHelpCommand` are `static`
in `mid_cli.c`, so no other file can name them). -/
def IsAppDefinition (d : CLI_Command_Definition_t) : Prop :=
  d.pxCommandInterpreter ≠ pdCOMMAND_LINE_CALLBACK.prvHelpCommand

instance (d : CLI_Command_Definition_t) : Decidable (IsAppDefinition d) := by
  unfold IsAppDefinition; infer_instance

/-- The states reachable from the initial state by calls of
`MidCLI_RegisterCommand` (with definitions of the application, the allocation
succeeding or not) and calls of `MidCLI_ProcessCommand` that return (with any
input line, memory after it, write buffer and buffer length). -/
inductive Reachable {σ : Type} (app : AppHandlers σ) (s0 : σ) : CLI_State σ → Prop where
  | init : Reachable app s0 (initialState s0)
  | register (st : CLI_State σ) (d : CLI_Command_Definition_t) (mallocOk : Bool) :
      Reachable app s0 st → IsAppDefinition d →
      Reachable app s0 (MidCLI_RegisterCommand st d mallocOk).2
  | process (st : CLI_State σ) (input : List Nat) (beyond : Nat → Nat) (buf : Nat → Nat)
      (cap : Nat) (res : CLI_Result σ) :
      Reachable app s0 st → MidCLI_ProcessCommand app st input beyond buf cap = some res →
      Reachable app s0 res.state

/-- The built-in help entry is the head of the list and the only item whose
interpreter is `prvHelpCommand`, and the cursor of `prvHelpCommand` is away
from its reset value only while the help entry is the active command. -/
def HelpInv {σ : Type} (st : CLI_State σ) : Prop :=
  WF st ∧
  (st.items[0]?).map (fun it => it.pxCommandLineDefinition) = some xHelpCommand ∧
  (∀ a it, st.items[a]? = some it →
    it.pxCommandLineDefinition.pxCommandInterpreter = pdCOMMAND_LINE_CALLBACK.prvHelpCommand →
    a = 0) ∧
  (st.prvHelpCommand_pxCommand ≠ none → st.pxCommand = some 0)

/-! ## Reads of the input and writes of the buffer -/

/-- The index of the input line that the search reads first when it examines
an item: `pcCommandInput[xCommandStringLength]`, for the length of the name of
the item. -/
def CLI_Event.boundaryRead (items : List CLI_Definition_List_Item_t) :
    CLI_Event → Option Nat
  | CLI_Event.examined a =>
    (items[a]?).map (fun it => strlen it.pxCommandLineDefinition.pcCommand)
  | _ => none

/-- The indices at which the events of a search read the byte after the name. -/
def boundaryReads (items : List CLI_Definition_List_Item_t) (ev : List CLI_Event) :
    List Nat :=
  ev.filterMap (CLI_Event.boundaryRead items)

/-- The buffer `out` is the buffer `dst` after a write of the message `m`
truncated to the capacity `c`: the first `min |m| c` bytes are those of `m`,
the bytes from there up to `c - 1` are zero, and the bytes from `c` on are
those of `dst`. -/
def TruncatedWrite (dst : Nat → Nat) (m : List Nat) (c : Nat) (out : Nat → Nat) : Prop :=
  (∀ i, i < min m.length c → m[i]? = some (out i)) ∧
  (∀ i, min m.length c ≤ i → i < c → out i = 0) ∧
  (∀ i, c ≤ i → out i = dst i)

/-- The first `c` bytes of a buffer. -/
def firstBytes (buf : Nat → Nat) (c : Nat) : List Nat := (List.range c).map buf

/-! # Lemmas -/

/-! ## String comparison and the match test -/

theorem strncmpFrom_eq_zero_iff (s1 s2 : Nat → Nat) (n : Nat) :
    ∀ i, (∀ j, i ≤ j → j < i + n → s2 j ≠ 0) →
      (strncmpFrom s1 s2 i n = 0 ↔ ∀ j, i ≤ j → j < i + n → s1 j = s2 j) := by
  induction n with
  | zero =>
    intro i _
    simp only [strncmpFrom, true_iff]
    intro j h1 h2
    omega
  | succ n ih =>
    intro i h
    unfold strncmpFrom
    by_cases hne : s1 i = s2 i
    · have h2 : s2 i ≠ 0 := h i (Nat.le_refl i) (by omega)
      have h1 : s1 i ≠ 0 := by rw [hne]; exact h2
      simp only [hne, ne_eq, not_true_eq_false, if_false]
      rw [if_neg h2]
      have ih2 := ih (i + 1) (fun j hj1 hj2 => h j (by omega) (by omega))
      rw [ih2]
      constructor
      · intro hall j hj1 hj2
        by_cases hji : j = i
        · rw [hji, hne]
        · exact hall j (by omega) (by omega)
      · intro hall j hj1 hj2
        exact hall j (by omega) (by omega)
    · rw [if_pos hne]
      constructor
      · intro h0
        exfalso
        apply hne
        have : (s1 i : Int) = (s2 i : Int) := by omega
        exact_mod_cast this
      · intro hall
        exact absurd (hall i (Nat.le_refl i) (by omega)) hne

theorem readAt_lt (s : List Nat) (beyond : Nat → Nat) (i : Nat) (h : i < s.length) :
    readAt s beyond i = s[i] := by
  unfold readAt
  rw [if_pos h]
  simp [List.getD_eq_getElem?_getD, List.getElem?_eq_getElem h]

theorem readAt_length (s : List Nat) (beyond : Nat → Nat) :
    readAt s beyond s.length = 0 := by
  unfold readAt
  simp

theorem NoNul.getElem_ne {s : List Nat} (h : NoNul s) (i : Nat) (hi : i < s.length) :
    s[i] ≠ 0 := h _ (List.getElem_mem hi)

theorem strncmp_eq_zero_iff_starts (name input : List Nat) (beyond : Nat → Nat)
    (hn : NoNul name) :
    strncmp (readAt input beyond) (fun i => name.getD i 0) (strlen name) = 0 ↔
      name <+: input := by
  unfold strncmp strlen
  rw [strncmpFrom_eq_zero_iff]
  · constructor
    · intro hall
      have hlen : name.length ≤ input.length := by
        by_contra hlt
        have hlt2 : input.length < name.length := by omega
        have h1 := hall input.length (Nat.zero_le _) (by omega)
        rw [readAt_length] at h1
        have h2 := hn.getElem_ne input.length hlt2
        simp [List.getD_eq_getElem?_getD, List.getElem?_eq_getElem hlt2] at h1
        exact h2 h1.symm
      rw [List.prefix_iff_eq_take]
      apply List.ext_getElem
      · simp [hlen]
      · intro j h1 h2
        have h3 := hall j (Nat.zero_le _) (by omega)
        rw [readAt_lt _ _ _ (by omega)] at h3
        simp [List.getD_eq_getElem?_getD, List.getElem?_eq_getElem h1] at h3
        simp [h3]
    · rintro ⟨t, rfl⟩ j _ hj
      have hj2 : j < name.length := by omega
      rw [readAt_lt _ _ _ (by simp; omega)]
      simp [List.getD_eq_getElem?_getD, List.getElem?_eq_getElem hj2,
        List.getElem_append_left hj2]
  · intro j _ hj
    have hj2 : j < name.length := by omega
    simp [List.getD_eq_getElem?_getD, List.getElem?_eq_getElem hj2]
    exact hn.getElem_ne j hj2

theorem codeMatch_iff (name input : List Nat) (beyond : Nat → Nat)
    (hn : NoNul name) (hi : NoNul input) :
    CodeMatch name input beyond ↔ Matches name input := by
  unfold CodeMatch Matches
  rw [strncmp_eq_zero_iff_starts name input beyond hn, and_comm]
  apply and_congr_right
  intro hp
  have hlen : name.length ≤ input.length := hp.length_le
  unfold strlen
  rcases Nat.lt_or_ge name.length input.length with hlt | hge
  · rw [readAt_lt _ _ _ hlt, List.getElem?_eq_getElem hlt]
    have h0 := hi.getElem_ne _ hlt
    simp [h0]
    omega
  · have heq : name.length = input.length := by omega
    rw [heq, readAt_length]
    simp [SPACE]

/-! ## The linked list -/

theorem ChainOk.item {items : List CLI_Definition_List_Item_t} (h : ChainOk items)
    {a : Nat} (ha : a < items.length) :
    ∃ it, items[a]? = some it ∧
      it.pxNext = if a + 1 < items.length then some (a + 1) else none := by
  have h1 := h a ha
  rw [List.getElem?_eq_getElem ha] at h1 ⊢
  simp only [Option.map_some', Option.some.injEq] at h1
  exact ⟨_, rfl, h1⟩

theorem listFrom_eq (items : List CLI_Definition_List_Item_t) (h : ChainOk items) :
    ∀ fuel a, items.length ≤ a + fuel →
      listFrom items fuel (ptr items a) =
        (items.drop a).map (fun it => it.pxCommandLineDefinition) := by
  intro fuel
  induction fuel with
  | zero =>
    intro a ha
    have : items.drop a = [] := List.drop_eq_nil_of_le (by omega)
    simp [listFrom, this]
  | succ fuel ih =>
    intro a ha
    unfold ptr
    by_cases hlt : a < items.length
    · obtain ⟨it, hit, hnext⟩ := h.item hlt
      have hnext2 : it.pxNext = ptr items (a + 1) := hnext
      rw [if_pos hlt]
      simp only [listFrom, hit]
      rw [hnext2, ih (a + 1) (by omega)]
      rw [List.getElem?_eq_getElem hlt] at hit
      rw [List.drop_eq_getElem_cons hlt]
      simp only [Option.some.injEq] at hit
      simp [hit]
    · rw [if_neg hlt]
      have : items.drop a = [] := List.drop_eq_nil_of_le (by omega)
      simp [listFrom, this]

theorem registry_eq {σ : Type} (st : CLI_State σ) (h : WF st) :
    registry st = st.items.map (fun it => it.pxCommandLineDefinition) := by
  unfold registry
  have h0 : some 0 = ptr st.items 0 := by
    unfold ptr; rw [if_pos h.1]
  rw [h0, listFrom_eq st.items h.2.1 st.items.length 0 (by omega)]
  simp

theorem registry_getElem? {σ : Type} (st : CLI_State σ) (h : WF st) (a : Nat) :
    (registry st)[a]? = (st.items[a]?).map (fun it => it.pxCommandLineDefinition) := by
  rw [registry_eq st h, List.getElem?_map]

theorem registry_length {σ : Type} (st : CLI_State σ) (h : WF st) :
    (registry st).length = st.items.length := by
  rw [registry_eq st h, List.length_map]

/-! ## The search of the list -/

theorem scan_step_ne {items : List CLI_Definition_List_Item_t} {input : List Nat}
    {beyond : Nat → Nat} {fuel a : Nat} {item : CLI_Definition_List_Item_t}
    (hit : items[a]? = some item)
    (hm : ¬ CodeMatch item.pxCommandLineDefinition.pcCommand input beyond) :
    MidCLI_ProcessCommand.scan items input beyond (fuel + 1) (some a) =
      (MidCLI_ProcessCommand.scan items input beyond fuel item.pxNext).map
        (fun r => (r.1, r.2.1, CLI_Event.examined a :: r.2.2)) := by
  unfold CodeMatch at hm
  simp only [MidCLI_ProcessCommand.scan, hit]
  by_cases hb : readAt input beyond (strlen item.pxCommandLineDefinition.pcCommand) = SPACE
      ∨ readAt input beyond (strlen item.pxCommandLineDefinition.pcCommand) = 0
  · have hs : ¬ strncmp (readAt input beyond)
        (fun i => item.pxCommandLineDefinition.pcCommand.getD i 0)
        (strlen item.pxCommandLineDefinition.pcCommand) = 0 := fun h => hm ⟨hb, h⟩
    rw [if_pos hb, if_neg hs]
  · rw [if_neg hb]

theorem scan_step_eq {items : List CLI_Definition_List_Item_t} {input : List Nat}
    {beyond : Nat → Nat} {fuel a : Nat} {item : CLI_Definition_List_Item_t}
    (hit : items[a]? = some item)
    (hm : CodeMatch item.pxCommandLineDefinition.pcCommand input beyond) :
    MidCLI_ProcessCommand.scan items input beyond (fuel + 1) (some a) =
      some (some a,
        (if item.pxCommandLineDefinition.cExpectedNumberOfParameters ≥ 0 ∧
            prvGetNumberOfParameters input ≠
              item.pxCommandLineDefinition.cExpectedNumberOfParameters
         then pdFALSE else pdTRUE),
        (if item.pxCommandLineDefinition.cExpectedNumberOfParameters ≥ 0
         then [CLI_Event.examined a, CLI_Event.counted a] else [CLI_Event.examined a])) := by
  unfold CodeMatch at hm
  simp only [MidCLI_ProcessCommand.scan, hit]
  rw [if_pos hm.1, if_pos hm.2]
  by_cases h0 : item.pxCommandLineDefinition.cExpectedNumberOfParameters ≥ 0
  · by_cases h1 : prvGetNumberOfParameters input ≠
        item.pxCommandLineDefinition.cExpectedNumberOfParameters
    · rw [if_pos h0, if_pos h1, if_pos ⟨h0, h1⟩, if_pos h0]
    · rw [if_pos h0, if_neg h1, if_neg (fun h => h1 h.2), if_pos h0]
  · rw [if_neg h0, if_neg (fun h => h0 h.1), if_neg h0]

theorem scan_spec (items : List CLI_Definition_List_Item_t) (input : List Nat)
    (beyond : Nat → Nat) (hc : ChainOk items) (hi : NoNul input)
    (hn : ∀ it ∈ items, NoNul it.pxCommandLineDefinition.pcCommand) :
    ∀ fuel a, a ≤ items.length → items.length < a + fuel →
      ∃ r, MidCLI_ProcessCommand.scan items input beyond fuel (ptr items a) = some r ∧
        ScanPost items input a r := by
  intro fuel
  induction fuel with
  | zero => intro a h1 h2; omega
  | succ fuel ih =>
    intro a h1 h2
    by_cases hlt : a < items.length
    · obtain ⟨it, hit, hnext⟩ := hc.item hlt
      have hnext2 : it.pxNext = ptr items (a + 1) := hnext
      have hmem : it ∈ items := List.mem_iff_getElem?.mpr ⟨a, hit⟩
      have hiff := codeMatch_iff it.pxCommandLineDefinition.pcCommand input beyond
        (hn it hmem) hi
      have hp : ptr items a = some a := by unfold ptr; rw [if_pos hlt]
      rw [hp]
      by_cases hm : CodeMatch it.pxCommandLineDefinition.pcCommand input beyond
      · rw [scan_step_eq hit hm]
        refine ⟨_, rfl, ?_, ?_⟩
        · intro e he
          dsimp only at he
          split at he <;> simp at he <;> rcases he with rfl | rfl <;> rfl
        · dsimp only
          refine ⟨Nat.le_refl a, it, hit, hiff.mp hm, ?_, rfl⟩
          intro c hc1 hc2
          omega
      · rw [scan_step_ne hit hm, hnext2]
        obtain ⟨r, hr, hpost⟩ := ih (a + 1) (by omega) (by omega)
        rw [hr]
        refine ⟨_, rfl, ?_, ?_⟩
        · intro e he
          simp only [List.mem_cons] at he
          rcases he with rfl | he
          · rfl
          · exact hpost.1 e he
        · have hpost2 := hpost.2
          have hnot : ∀ c, a ≤ c → c < a + 1 → ∀ e ∈ items[c]?,
              ¬ Matches e.pxCommandLineDefinition.pcCommand input := by
            intro c hc1 hc2 e he
            have : c = a := by omega
            subst this
            rw [hit] at he
            simp only [Option.mem_def, Option.some.injEq] at he
            subst he
            exact fun h => hm (hiff.mpr h)
          dsimp only
          rcases hr1 : r.1 with _ | b
          · rw [hr1] at hpost2
            dsimp only at hpost2 ⊢
            refine ⟨hpost2.1, ?_⟩
            intro c hc1 e he
            by_cases hca : c < a + 1
            · exact hnot c hc1 hca e he
            · exact hpost2.2 c (by omega) e he
          · rw [hr1] at hpost2
            dsimp only at hpost2 ⊢
            obtain ⟨hb1, it2, hit2, hm2, hfirst, hret⟩ := hpost2
            refine ⟨by omega, it2, hit2, hm2, ?_, hret⟩
            intro c hc1 hc2 e he
            by_cases hca : c < a + 1
            · exact hnot c hc1 hca e he
            · exact hfirst c (by omega) hc2 e he
    · have hp : ptr items a = none := by unfold ptr; rw [if_neg hlt]
      rw [hp]
      refine ⟨(none, pdTRUE, []), rfl, ?_, ?_⟩
      · intro e he; simp at he
      · dsimp only
        refine ⟨rfl, ?_⟩
        intro c hc1 e he
        have : items[c]? = none := List.getElem?_eq_none (by omega)
        rw [this] at he
        simp at he

theorem isFirstMatch_unique {reg : List CLI_Command_Definition_t} {input : List Nat}
    {a b : Nat} (ha : IsFirstMatch reg input a) (hb : IsFirstMatch reg input b) : a = b := by
  obtain ⟨⟨d, hd, hdm⟩, hfa⟩ := ha
  obtain ⟨⟨e, he, hem⟩, hfb⟩ := hb
  rcases Nat.lt_trichotomy a b with h | h | h
  · exact absurd hdm (hfb a h d hd)
  · exact h
  · exact absurd hem (hfa b h e he)

theorem noNul_items {σ : Type} (st : CLI_State σ) (hwf : WF st)
    (hn : ∀ d ∈ registry st, NoNul d.pcCommand) :
    ∀ it ∈ st.items, NoNul it.pxCommandLineDefinition.pcCommand := by
  intro it hit
  apply hn
  rw [registry_eq st hwf]
  exact List.mem_map_of_mem _ hit

/-- The search from Idle: it ends, calls no handler, and delivers the first
entry of the registry whose name matches, or `NULL` when there is none. -/
theorem search_idle {σ : Type} (st : CLI_State σ) (input : List Nat) (beyond : Nat → Nat)
    (hwf : WF st) (hidle : st.pxCommand = none) (hi : NoNul input)
    (hn : ∀ d ∈ registry st, NoNul d.pcCommand) :
    ∃ r, MidCLI_ProcessCommand.search st input beyond = some r ∧
      (∀ e ∈ r.2.2, CLI_Event.isInvoked e = false) ∧
      ((r.1 = none ∧ ∀ d ∈ registry st, ¬ Matches d.pcCommand input) ∨
       (∃ b it, r.1 = some b ∧ IsFirstMatch (registry st) input b ∧
          st.items[b]? = some it ∧
          r.2.1 = (if it.pxCommandLineDefinition.cExpectedNumberOfParameters ≥ 0 ∧
                      prvGetNumberOfParameters input ≠
                        it.pxCommandLineDefinition.cExpectedNumberOfParameters
                   then pdFALSE else pdTRUE))) := by
  have h0 : some 0 = ptr st.items 0 := by
    unfold ptr; rw [if_pos hwf.1]
  obtain ⟨r, hr, hev, hpost⟩ := scan_spec st.items input beyond hwf.2.1 hi
    (noNul_items st hwf hn) (st.items.length + 1) 0 (Nat.zero_le _) (by omega)
  refine ⟨r, ?_, hev, ?_⟩
  · unfold MidCLI_ProcessCommand.search
    rw [hidle, h0]
    exact hr
  · rcases hr1 : r.1 with _ | b
    · rw [hr1] at hpost
      dsimp only at hpost
      left
      refine ⟨rfl, ?_⟩
      intro d hd
      rw [registry_eq st hwf] at hd
      obtain ⟨it, hit, rfl⟩ := List.mem_map.mp hd
      obtain ⟨c, hc⟩ := List.mem_iff_getElem?.mp hit
      exact hpost.2 c (Nat.zero_le _) it hc
    · rw [hr1] at hpost
      dsimp only at hpost
      obtain ⟨_, it, hit, hm, hfirst, hret⟩ := hpost
      right
      refine ⟨b, it, rfl, ⟨⟨it.pxCommandLineDefinition, ?_, hm⟩, ?_⟩, hit, hret⟩
      · rw [registry_getElem? st hwf, hit]; rfl
      · intro c hc e he
        rw [registry_getElem? st hwf] at he
        simp only [Option.mem_def, Option.map_eq_some'] at he
        obtain ⟨it2, hit2, rfl⟩ := he
        exact hfirst c (Nat.zero_le _) hc it2 hit2

/-! ## The dispatcher from Idle -/

theorem callInterpreter_total {σ : Type} (app : AppHandlers σ) (st : CLI_State σ)
    (hwf : WF st) (f : pdCOMMAND_LINE_CALLBACK) (buf : Nat → Nat) (cap : Nat)
    (input : List Nat) :
    ∃ x, callInterpreter app st f buf cap input = some x := by
  cases f with
  | app addr => exact ⟨_, rfl⟩
  | prvHelpCommand =>
    simp only [callInterpreter, prvHelpCommand]
    have hidx : (match st.prvHelpCommand_pxCommand with
        | none => 0
        | some a => a) < st.items.length := by
      have hv := hwf.2.2.2.2
      cases hc : st.prvHelpCommand_pxCommand with
      | none => exact hwf.1
      | some a => rw [hc] at hv; exact hv
    rw [List.getElem?_eq_getElem hidx]
    exact ⟨_, rfl⟩

theorem WF_setCommand {σ : Type} (st : CLI_State σ) (hwf : WF st) (p : Option Nat)
    (hp : ValidPtr st.items p) : WF { st with pxCommand := p } :=
  ⟨hwf.1, hwf.2.1, hwf.2.2.1, hp, hwf.2.2.2.2⟩

theorem validPtr_some {items : List CLI_Definition_List_Item_t} {a : Nat}
    {it : CLI_Definition_List_Item_t} (h : items[a]? = some it) : ValidPtr items (some a) := by
  unfold ValidPtr
  dsimp only
  by_contra hlt
  rw [List.getElem?_eq_none (by omega)] at h
  cases h

theorem handlerCalls_append {ev : List CLI_Event}
    (hev : ∀ e ∈ ev, CLI_Event.isInvoked e = false) (a : Nat) (buf : Nat → Nat) (cap : Nat)
    (input : List Nat) :
    (ev ++ [CLI_Event.invoked a buf cap input]).filter CLI_Event.isInvoked =
      [CLI_Event.invoked a buf cap input] := by
  rw [List.filter_append, List.filter_eq_nil_iff.mpr (fun e he => by simp [hev e he])]
  rfl

theorem handlerCalls_none {ev : List CLI_Event}
    (hev : ∀ e ∈ ev, CLI_Event.isInvoked e = false) :
    ev.filter CLI_Event.isInvoked = [] :=
  List.filter_eq_nil_iff.mpr (fun e he => by simp [hev e he])

/-- A call of `MidCLI_ProcessCommand` from Idle returns, in one of three ways:
not found, wrong parameter count, or a call of the handler of the first
matching entry. -/
theorem process_idle {σ : Type} (app : AppHandlers σ) (st : CLI_State σ)
    (input : List Nat) (beyond : Nat → Nat) (buf : Nat → Nat) (cap : Nat)
    (hwf : WF st) (hidle : st.pxCommand = none) (hi : NoNul input)
    (hn : ∀ d ∈ registry st, NoNul d.pcCommand) :
    ∃ r res, MidCLI_ProcessCommand.search st input beyond = some r ∧
      MidCLI_ProcessCommand app st input beyond buf cap = some res ∧
      (∀ e ∈ r.2.2, CLI_Event.isInvoked e = false) ∧
      ((r.1 = none ∧ (∀ d ∈ registry st, ¬ Matches d.pcCommand input) ∧
          res = { xReturn := pdFALSE
                  pcWriteBuffer := strncpy buf msgNotRecognised cap
                  state := { st with pxCommand := none }
                  events := r.2.2 }) ∨
       (∃ b it, r.1 = some b ∧ IsFirstMatch (registry st) input b ∧
          st.items[b]? = some it ∧
          (it.pxCommandLineDefinition.cExpectedNumberOfParameters ≥ 0 ∧
            prvGetNumberOfParameters input ≠
              it.pxCommandLineDefinition.cExpectedNumberOfParameters) ∧
          res = { xReturn := pdFALSE
                  pcWriteBuffer := strncpy buf msgIncorrectParameters cap
                  state := { st with pxCommand := none }
                  events := r.2.2 }) ∨
       (∃ b it ret buf1 st1, r.1 = some b ∧ IsFirstMatch (registry st) input b ∧
          st.items[b]? = some it ∧
          ¬ (it.pxCommandLineDefinition.cExpectedNumberOfParameters ≥ 0 ∧
            prvGetNumberOfParameters input ≠
              it.pxCommandLineDefinition.cExpectedNumberOfParameters) ∧
          callInterpreter app { st with pxCommand := some b }
            it.pxCommandLineDefinition.pxCommandInterpreter buf cap input
              = some (ret, buf1, st1) ∧
          res = { xReturn := ret
                  pcWriteBuffer := buf1
                  state := { st1 with pxCommand := if ret = pdFALSE then none else some b }
                  events := r.2.2 ++ [CLI_Event.invoked b buf cap input] })) := by
  obtain ⟨r, hr, hev, hcase⟩ := search_idle st input beyond hwf hidle hi hn
  obtain ⟨p, x, ev⟩ := r
  dsimp only at hev hcase
  rcases hcase with ⟨h1, h2⟩ | ⟨b, it, h1, h2, hit, hret⟩
  · subst h1
    refine ⟨_, _, hr, ?_, hev, Or.inl ⟨rfl, h2, rfl⟩⟩
    simp only [MidCLI_ProcessCommand, hr]
  · subst h1
    by_cases hbad : it.pxCommandLineDefinition.cExpectedNumberOfParameters ≥ 0 ∧
        prvGetNumberOfParameters input ≠
          it.pxCommandLineDefinition.cExpectedNumberOfParameters
    · rw [if_pos hbad] at hret
      subst hret
      refine ⟨_, _, hr, ?_, hev, Or.inr (Or.inl ⟨b, it, rfl, h2, hit, hbad, rfl⟩)⟩
      simp only [MidCLI_ProcessCommand, hr, if_true]
    · rw [if_neg hbad] at hret
      subst hret
      obtain ⟨⟨ret, buf1, st1⟩, hcall⟩ := callInterpreter_total app
        { st with pxCommand := some b } (WF_setCommand st hwf (some b) (validPtr_some hit))
        it.pxCommandLineDefinition.pxCommandInterpreter buf cap input
      refine ⟨_, _, hr, ?_, hev,
        Or.inr (Or.inr ⟨b, it, ret, buf1, st1, rfl, h2, hit, hbad, hcall, rfl⟩)⟩
      have hne : ¬ (pdTRUE = pdFALSE) := by decide
      simp only [MidCLI_ProcessCommand, hr, if_neg hne, hit, hcall]

/-! ## The tokenizer -/

theorem measureWord_add (s : List Nat) : ∀ len, measureWord s len = len + measureWord s 0 := by
  induction s with
  | nil => intro len; simp [measureWord]
  | cons c rest ih =>
    intro len
    by_cases hc : c = SPACE
    · simp [measureWord, hc]
    · simp only [measureWord, ne_eq, hc, not_false_eq_true, if_true]
      rw [ih (len + 1), ih (0 + 1)]
      omega

theorem tokensFrom_skipSpaces (s : List Nat) :
    ∀ p, tokensFrom s p none = tokensFrom (skipSpaces s p).1 (skipSpaces s p).2 none := by
  induction s with
  | nil => intro p; rfl
  | cons c rest ih =>
    intro p
    by_cases hc : c = SPACE
    · simp only [tokensFrom, skipSpaces, hc, if_true]
      exact ih (p + 1)
    · simp only [skipSpaces, hc, if_false]

theorem skipSpaces_head (s : List Nat) :
    ∀ p c rest, (skipSpaces s p).1 = c :: rest → c ≠ SPACE := by
  induction s with
  | nil => intro p c rest h; simp [skipSpaces] at h
  | cons d ds ih =>
    intro p c rest h
    by_cases hd : d = SPACE
    · simp only [skipSpaces, hd, if_true] at h
      exact ih (p + 1) c rest h
    · simp only [skipSpaces, hd, if_false] at h
      cases h
      exact hd

theorem tokensFrom_word (s : List Nat) :
    ∀ p r, tokensFrom s p (some r) =
      (r.1, r.2 + measureWord s 0) ::
        tokensFrom (skipWord s p).1 (skipWord s p).2 none := by
  induction s with
  | nil => intro p r; simp [tokensFrom, skipWord, measureWord]
  | cons c rest ih =>
    intro p r
    by_cases hc : c = SPACE
    · simp [tokensFrom, skipWord, measureWord, hc]
    · simp only [tokensFrom, skipWord, measureWord, ne_eq, hc, not_false_eq_true, if_true,
        if_false]
      rw [ih (p + 1) (r.1, r.2 + 1), measureWord_add rest (0 + 1)]
      simp only [List.cons.injEq, Prod.mk.injEq, true_and, and_true]
      omega

theorem tokensFrom_start (c : Nat) (rest : List Nat) (p : Nat) (hc : c ≠ SPACE) :
    tokensFrom (c :: rest) p none =
      (p, measureWord (c :: rest) 0) ::
        tokensFrom (skipWord (c :: rest) p).1 (skipWord (c :: rest) p).2 none := by
  simp only [tokensFrom, skipWord, measureWord, ne_eq, hc, not_false_eq_true, if_true,
    if_false]
  rw [tokensFrom_word rest (p + 1) (p, 1), measureWord_add rest (0 + 1)]

theorem measureWord_pos (c : Nat) (rest : List Nat) (hc : c ≠ SPACE) :
    measureWord (c :: rest) 0 ≠ 0 := by
  simp only [measureWord, ne_eq, hc, not_false_eq_true, if_true]
  rw [measureWord_add]
  omega

theorem getParameter_loop_eq :
    ∀ k s p, s.head? ≠ some SPACE →
      MidCLI_GetParameter.loop (k + 1) s p = tokenAt (tokensFrom s p none) (k + 1) := by
  intro k
  induction k with
  | zero =>
    intro s p hs
    cases s with
    | nil => simp [MidCLI_GetParameter.loop, skipWord, skipSpaces, tokensFrom, tokenAt]
    | cons c rest =>
      have hc : c ≠ SPACE := by simpa using hs
      rw [tokensFrom_start c rest p hc, tokensFrom_skipSpaces]
      unfold MidCLI_GetParameter.loop
      dsimp only
      cases hn : (skipSpaces (skipWord (c :: rest) p).1 (skipWord (c :: rest) p).2).1 with
      | nil => simp [tokenAt, tokensFrom]
      | cons d ds =>
        have hd : d ≠ SPACE := skipSpaces_head _ _ d ds hn
        dsimp only
        rw [if_pos rfl, if_neg (measureWord_pos d ds hd), tokensFrom_start d ds _ hd]
        simp [tokenAt]
  | succ k ih =>
    intro s p hs
    cases s with
    | nil => simp [MidCLI_GetParameter.loop, skipWord, skipSpaces, tokensFrom, tokenAt]
    | cons c rest =>
      have hc : c ≠ SPACE := by simpa using hs
      rw [tokensFrom_start c rest p hc, tokensFrom_skipSpaces]
      unfold MidCLI_GetParameter.loop
      dsimp only
      cases hn : (skipSpaces (skipWord (c :: rest) p).1 (skipWord (c :: rest) p).2).1 with
      | nil => simp [tokenAt, tokensFrom]
      | cons d ds =>
        have hd : d ≠ SPACE := skipSpaces_head _ _ d ds hn
        dsimp only
        rw [if_neg (Nat.succ_ne_zero k), ih (d :: ds) _ (by simpa using hd)]
        simp [tokenAt]

/-! ## The parameter counter -/

theorem wrapInt8_add (x y : Int) : wrapInt8 (wrapInt8 x + y) = wrapInt8 (x + y) := by
  unfold wrapInt8; omega

theorem wrapInt8_inInt8 (x : Int) : InInt8 (wrapInt8 x) := by
  unfold InInt8 wrapInt8; omega

theorem wrapInt8_of_inInt8 {x : Int} (h : InInt8 x) : wrapInt8 x = x := by
  unfold InInt8 at h; unfold wrapInt8; omega

theorem loop_inInt8 (s : List Nat) :
    ∀ c l, InInt8 c → InInt8 (prvGetNumberOfParameters.loop s c l).1 := by
  induction s with
  | nil => intro c l h; exact h
  | cons ch rest ih =>
    intro c l h
    unfold prvGetNumberOfParameters.loop
    split_ifs
    · exact ih _ _ (wrapInt8_inInt8 _)
    · exact ih _ _ h
    · exact ih _ _ h

theorem countFrom_inInt8 (s : List Nat) (c l : Int) (h : InInt8 c) :
    InInt8 (countFrom s c l) := by
  unfold countFrom
  dsimp only
  split_ifs
  · exact wrapInt8_inInt8 _
  · exact loop_inInt8 s c l h

theorem countFrom_cons_space_false (rest : List Nat) (c : Int) :
    countFrom (SPACE :: rest) c pdFALSE = countFrom rest (wrapInt8 (c + 1)) pdTRUE := by
  have h : pdFALSE ≠ pdTRUE := by decide
  simp only [countFrom, prvGetNumberOfParameters.loop, if_true, h, ne_eq, not_false_eq_true]

theorem countFrom_cons_space_true (rest : List Nat) (c : Int) :
    countFrom (SPACE :: rest) c pdTRUE = countFrom rest c pdTRUE := by
  simp only [countFrom, prvGetNumberOfParameters.loop, if_true, ne_eq, not_true_eq_false,
    if_false]

theorem countFrom_cons_char (ch : Nat) (rest : List Nat) (c l : Int) (hc : ch ≠ SPACE) :
    countFrom (ch :: rest) c l = countFrom rest c pdFALSE := by
  simp only [countFrom, prvGetNumberOfParameters.loop, hc, if_false]

/-- The counting loop and the tokens: in a word (flag clear, a token being
read) and between words (flag set, no token being read) the result is the
counter plus the tokens still to come, less one, as an `int8_t`. -/
theorem countFrom_tokens (s : List Nat) :
    ∀ (c : Int) (p : Nat) (r : Nat × Nat),
      wrapInt8 (countFrom s c pdFALSE) =
          wrapInt8 (c + ((tokensFrom s p (some r)).length : Int) - 1) ∧
      wrapInt8 (countFrom s c pdTRUE) =
          wrapInt8 (c + ((tokensFrom s p none).length : Int) - 1) := by
  induction s with
  | nil =>
    intro c p r
    have h : pdFALSE ≠ pdTRUE := by decide
    constructor
    · simp [countFrom, prvGetNumberOfParameters.loop, tokensFrom, h]
    · simp only [countFrom, prvGetNumberOfParameters.loop, tokensFrom, if_true,
        List.length_nil, Int.Nat.cast_ofNat_Int]
      unfold wrapInt8; omega
  | cons ch rest ih =>
    intro c p r
    by_cases hc : ch = SPACE
    · subst hc
      constructor
      · rw [countFrom_cons_space_false, (ih (wrapInt8 (c + 1)) (p + 1) r).2]
        simp only [tokensFrom, if_true, List.length_cons, Nat.cast_add, Nat.cast_one]
        unfold wrapInt8; omega
      · rw [countFrom_cons_space_true, (ih c (p + 1) r).2]
        simp only [tokensFrom, if_true]
    · constructor
      · rw [countFrom_cons_char ch rest c _ hc, (ih c (p + 1) (r.1, r.2 + 1)).1]
        simp only [tokensFrom, hc, if_false]
      · rw [countFrom_cons_char ch rest c _ hc, (ih c (p + 1) (p, 1)).1]
        simp only [tokensFrom, hc, if_false]

theorem tokensFrom_length_indep (s : List Nat) :
    ∀ p q, (tokensFrom s p none).length = (tokensFrom s q none).length ∧
      ∀ r t, (tokensFrom s p (some r)).length = (tokensFrom s q (some t)).length := by
  induction s with
  | nil => intro p q; simp [tokensFrom]
  | cons ch rest ih =>
    intro p q
    by_cases hc : ch = SPACE
    · simp only [tokensFrom, hc, if_true, List.length_cons, Nat.add_right_cancel_iff]
      exact ⟨(ih (p + 1) (q + 1)).1, fun _ _ => (ih (p + 1) (q + 1)).1⟩
    · simp only [tokensFrom, hc, if_false]
      exact ⟨(ih (p + 1) (q + 1)).2 _ _, fun _ _ => (ih (p + 1) (q + 1)).2 _ _⟩

/-- `prvGetNumberOfParameters` returns the counted tokens as an `int8_t`. -/
theorem prvGetNumberOfParameters_eq (s : List Nat) :
    prvGetNumberOfParameters s = wrapInt8 (countedTokens s) := by
  have h0 : prvGetNumberOfParameters s = countFrom s 0 pdFALSE := rfl
  have hr : InInt8 (countFrom s 0 pdFALSE) :=
    countFrom_inInt8 s 0 pdFALSE (by unfold InInt8; omega)
  rw [h0, ← wrapInt8_of_inInt8 hr]
  cases s with
  | nil =>
    have h : pdFALSE ≠ pdTRUE := by decide
    simp [countFrom, prvGetNumberOfParameters.loop, countedTokens, tokens, tokensFrom, h]
  | cons ch rest =>
    by_cases hc : ch = SPACE
    · subst hc
      rw [countFrom_cons_space_false, (countFrom_tokens rest (wrapInt8 (0 + 1)) (0 + 1) (0, 0)).2]
      simp only [countedTokens, List.head?_cons, if_true, tokens, tokensFrom]
      unfold wrapInt8; omega
    · rw [countFrom_cons_char ch rest 0 _ hc, (countFrom_tokens rest 0 (0 + 1) (0, 1)).1]
      have hh : ¬ ((ch :: rest).head? = some SPACE) := by simpa using hc
      simp only [countedTokens, hh, if_false, tokens, tokensFrom, hc]
      have hpos := tokensFrom_word rest (0 + 1) (0, 1)
      have hlen : 0 < (tokensFrom rest (0 + 1) (some (0, 1))).length := by
        rw [hpos]; simp
      have hcast : (((tokensFrom rest (0 + 1) (some (0, 1))).length - 1 : Nat) : Int) =
          ((tokensFrom rest (0 + 1) (some (0, 1))).length : Int) - 1 := by omega
      rw [hcast]
      simp

theorem tokensFrom_noSpace_append (w : List Nat) (hw : NoSpace w) (rest : List Nat)
    (hrest : rest = [] ∨ rest.head? = some SPACE) :
    ∀ p r, (tokensFrom (w ++ rest) p (some r)).length = 1 + (tokens rest).length := by
  induction w with
  | nil =>
    intro p r
    rcases hrest with h | h
    · subst h; simp [tokensFrom, tokens]
    · cases rest with
      | nil => simp at h
      | cons c cs =>
        have hc : c = SPACE := by simpa using h
        subst hc
        simp only [List.nil_append, tokensFrom, if_true, List.length_cons, tokens]
        rw [(tokensFrom_length_indep cs (p + 1) (0 + 1)).1]
        omega
  | cons c cs ih =>
    intro p r
    have hc : c ≠ SPACE := hw c (List.mem_cons_self _ _)
    have hcs : NoSpace cs := fun b hb => hw b (List.mem_cons_of_mem _ hb)
    simp only [List.cons_append, tokensFrom, hc, if_false]
    exact ih hcs _ _

/-- For a line that a name without a space matches, the counted tokens are the
tokens that follow the name. -/
theorem countedTokens_of_matches (name input : List Nat) (hw : NoSpace name)
    (hm : Matches name input) :
    countedTokens input = (tokens (input.drop name.length)).length := by
  obtain ⟨⟨rest, rfl⟩, hb⟩ := hm
  have hrest : rest = [] ∨ rest.head? = some SPACE := by
    cases rest with
    | nil => left; rfl
    | cons c cs =>
      right
      rcases hb with h | h
      · rw [List.getElem?_append_right (Nat.le_refl _)] at h
        simpa using h
      · simp at h
  rw [List.drop_left]
  cases name with
  | nil =>
    rcases hrest with h | h
    · subst h; simp [countedTokens, tokens, tokensFrom]
    · simp [countedTokens, h]
  | cons c cs =>
    have hc : c ≠ SPACE := hw c (List.mem_cons_self _ _)
    have hcs : NoSpace cs := fun b hb => hw b (List.mem_cons_of_mem _ hb)
    have hh : ¬ ((c :: cs ++ rest).head? = some SPACE) := by simpa using hc
    simp only [countedTokens, hh, if_false]
    have : (tokens (c :: cs ++ rest)).length = 1 + (tokens rest).length := by
      simp only [tokens, List.cons_append, tokensFrom, hc, if_false]
      exact tokensFrom_noSpace_append cs hcs rest hrest _ _
    omega

theorem wrapInt8_eq_iff_mod (n : Nat) (k : Int) (h0 : 0 ≤ k) (h1 : k ≤ 127) :
    wrapInt8 (n : Int) = k ↔ ((n % 256 : Nat) : Int) = k := by
  unfold wrapInt8; omega

/-! ## The dispatcher in any state -/

theorem scan_shape (items : List CLI_Definition_List_Item_t) (input : List Nat)
    (beyond : Nat → Nat) :
    ∀ fuel p r, MidCLI_ProcessCommand.scan items input beyond fuel p = some r →
      (∀ e ∈ r.2.2, CLI_Event.isInvoked e = false) ∧ ValidPtr items r.1 := by
  intro fuel
  induction fuel with
  | zero => intro p r h; simp [MidCLI_ProcessCommand.scan] at h
  | succ fuel ih =>
    intro p r h
    cases p with
    | none =>
      simp only [MidCLI_ProcessCommand.scan, Option.some.injEq] at h
      subst h
      exact ⟨fun e he => by simp at he, trivial⟩
    | some a =>
      cases hit : items[a]? with
      | none => simp [MidCLI_ProcessCommand.scan, hit] at h
      | some item =>
        by_cases hm : CodeMatch item.pxCommandLineDefinition.pcCommand input beyond
        · rw [scan_step_eq hit hm] at h
          simp only [Option.some.injEq] at h
          subst h
          refine ⟨?_, validPtr_some hit⟩
          intro e he
          dsimp only at he
          split at he <;> simp at he <;> rcases he with rfl | rfl <;> rfl
        · rw [scan_step_ne hit hm] at h
          simp only [Option.map_eq_some'] at h
          obtain ⟨r0, hr0, rfl⟩ := h
          obtain ⟨h1, h2⟩ := ih _ _ hr0
          refine ⟨?_, h2⟩
          intro e he
          simp only [List.mem_cons] at he
          rcases he with rfl | he
          · rfl
          · exact h1 e he

theorem search_shape {σ : Type} (st : CLI_State σ) (hwf : WF st) (input : List Nat)
    (beyond : Nat → Nat) (r : Option Nat × Int × List CLI_Event)
    (h : MidCLI_ProcessCommand.search st input beyond = some r) :
    (∀ e ∈ r.2.2, CLI_Event.isInvoked e = false) ∧ ValidPtr st.items r.1 := by
  unfold MidCLI_ProcessCommand.search at h
  cases hc : st.pxCommand with
  | none =>
    rw [hc] at h
    exact scan_shape _ _ _ _ _ _ h
  | some a =>
    rw [hc] at h
    simp only [Option.some.injEq] at h
    subst h
    refine ⟨fun e he => by simp at he, ?_⟩
    have := hwf.2.2.2.1
    rw [hc] at this
    exact this

theorem callInterpreter_frame {σ : Type} (app : AppHandlers σ) (st : CLI_State σ)
    (hwf : WF st) (f : pdCOMMAND_LINE_CALLBACK) (buf : Nat → Nat) (cap : Nat)
    (input : List Nat) (ret : Int) (buf1 : Nat → Nat) (st1 : CLI_State σ)
    (h : callInterpreter app st f buf cap input = some (ret, buf1, st1)) :
    st1.items = st.items ∧ st1.pxLastCommandInList = st.pxLastCommandInList ∧
      st1.pxCommand = st.pxCommand ∧ WF st1 := by
  cases f with
  | app addr =>
    simp only [callInterpreter, Option.some.injEq, Prod.mk.injEq] at h
    obtain ⟨_, _, rfl⟩ := h
    exact ⟨rfl, rfl, rfl, hwf⟩
  | prvHelpCommand =>
    simp only [callInterpreter, prvHelpCommand] at h
    split at h
    · cases h
    · rename_i item hitem
      simp only [Option.some.injEq, Prod.mk.injEq] at h
      obtain ⟨_, _, rfl⟩ := h
      refine ⟨rfl, rfl, rfl, hwf.1, hwf.2.1, hwf.2.2.1, hwf.2.2.2.1, ?_⟩
      dsimp only
      have hlt : (match st.prvHelpCommand_pxCommand with
          | none => 0
          | some a => a) < st.items.length := by
        by_contra hge
        rw [List.getElem?_eq_none (by omega)] at hitem
        cases hitem
      obtain ⟨it, hit, hnext⟩ := hwf.2.1.item hlt
      rw [hitem] at hit
      cases hit
      rw [hnext]
      unfold ValidPtr
      split_ifs with h1
      · exact h1
      · trivial

/-- A call of `MidCLI_ProcessCommand` while a command is active: the list is
not searched and no parameter is counted; the one event is the call of the
handler of the active command. -/
theorem process_streaming {σ : Type} (app : AppHandlers σ) (st : CLI_State σ)
    (input : List Nat) (beyond : Nat → Nat) (buf : Nat → Nat) (cap : Nat)
    (hwf : WF st) (a : Nat) (hact : st.pxCommand = some a) :
    ∃ it ret buf1 st1, st.items[a]? = some it ∧
      callInterpreter app st it.pxCommandLineDefinition.pxCommandInterpreter buf cap input
        = some (ret, buf1, st1) ∧
      MidCLI_ProcessCommand app st input beyond buf cap =
        some { xReturn := ret
               pcWriteBuffer := buf1
               state := { st1 with pxCommand := if ret = pdFALSE then none else some a }
               events := [CLI_Event.invoked a buf cap input] } := by
  have hv : a < st.items.length := by
    have := hwf.2.2.2.1
    rw [hact] at this
    exact this
  have hit : st.items[a]? = some st.items[a] := List.getElem?_eq_getElem hv
  obtain ⟨⟨ret, buf1, st1⟩, hcall⟩ := callInterpreter_total app st hwf
    st.items[a].pxCommandLineDefinition.pxCommandInterpreter buf cap input
  refine ⟨st.items[a], ret, buf1, st1, hit, hcall, ?_⟩
  have hne : ¬ (pdTRUE = pdFALSE) := by decide
  have hst : { st with pxCommand := some a } = st := by
    cases st
    simp only at hact
    subst hact
    rfl
  simp only [MidCLI_ProcessCommand, MidCLI_ProcessCommand.search, hact, if_neg hne, hit,
    hst, hcall, List.nil_append]

/-- Every call of `MidCLI_ProcessCommand` that returns leaves a well-formed
state, and either it returns `pdFALSE`, called at most one handler and leaves
no command active, or it returns another value and leaves active the one
command whose handler it called. -/
theorem process_shape {σ : Type} (app : AppHandlers σ) (st : CLI_State σ)
    (input : List Nat) (beyond : Nat → Nat) (buf : Nat → Nat) (cap : Nat)
    (hwf : WF st) (res : CLI_Result σ)
    (h : MidCLI_ProcessCommand app st input beyond buf cap = some res) :
    WF res.state ∧ res.state.items = st.items ∧
      ((res.xReturn = pdFALSE ∧ res.state.pxCommand = none) ∨
       (∃ a, res.xReturn ≠ pdFALSE ∧ res.state.pxCommand = some a ∧
          handlerCalls res = [CLI_Event.invoked a buf cap input])) := by
  unfold MidCLI_ProcessCommand at h
  cases hs : MidCLI_ProcessCommand.search st input beyond with
  | none => rw [hs] at h; cases h
  | some r =>
    obtain ⟨p, x, ev⟩ := r
    obtain ⟨hev, hp⟩ := search_shape st hwf input beyond _ hs
    rw [hs] at h
    cases p with
    | none =>
      simp only [Option.some.injEq] at h
      subst h
      exact ⟨WF_setCommand st hwf none trivial, rfl, Or.inl ⟨rfl, rfl⟩⟩
    | some a =>
      dsimp only at h
      by_cases hx : x = pdFALSE
      · rw [if_pos hx] at h
        simp only [Option.some.injEq] at h
        subst h
        exact ⟨WF_setCommand st hwf none trivial, rfl, Or.inl ⟨hx, rfl⟩⟩
      · rw [if_neg hx] at h
        cases hit : st.items[a]? with
        | none => rw [hit] at h; cases h
        | some it =>
          rw [hit] at h
          dsimp only at h
          cases hcall : callInterpreter app { st with pxCommand := some a }
              it.pxCommandLineDefinition.pxCommandInterpreter buf cap input with
          | none => rw [hcall] at h; cases h
          | some y =>
            obtain ⟨ret, buf1, st1⟩ := y
            rw [hcall] at h
            simp only [Option.some.injEq] at h
            subst h
            obtain ⟨hitems, hlast, _, hwf1⟩ := callInterpreter_frame app _
              (WF_setCommand st hwf (some a) hp) _ _ _ _ _ _ _ hcall
            have hpa : ValidPtr st1.items (some a) := by rw [hitems]; exact hp
            by_cases hret : ret = pdFALSE
            · refine ⟨?_, hitems, Or.inl ⟨hret, ?_⟩⟩
              · dsimp only
                rw [if_pos hret]
                exact WF_setCommand st1 hwf1 none trivial
              · dsimp only
                rw [if_pos hret]
            · refine ⟨?_, hitems, Or.inr ⟨a, hret, ?_, ?_⟩⟩
              · dsimp only
                rw [if_neg hret]
                exact WF_setCommand st1 hwf1 (some a) hpa
              · dsimp only
                rw [if_neg hret]
              · exact handlerCalls_append hev a buf cap input

/-! ## Registration -/

theorem WF_initialState {σ : Type} (s0 : σ) : WF (initialState s0) := by
  refine ⟨Nat.zero_lt_one, ?_, rfl, trivial, trivial⟩
  intro a ha
  have : a = 0 := by
    simp only [initialState, List.length_singleton] at ha
    omega
  subst this
  rfl

theorem register_items {σ : Type} (st : CLI_State σ) (hwf : WF st)
    (d : CLI_Command_Definition_t) :
    ∃ last, st.items[st.pxLastCommandInList]? = some last ∧
      (MidCLI_RegisterCommand st d true).2.items =
        (st.items ++ [CLI_Definition_List_Item_t.mk d none]).set
          st.pxLastCommandInList { last with pxNext := some st.items.length } := by
  have hlt : st.pxLastCommandInList < st.items.length := by
    have := hwf.2.2.1; omega
  refine ⟨st.items[st.pxLastCommandInList], List.getElem?_eq_getElem hlt, ?_⟩
  have h1 : (st.items ++ [({ pxCommandLineDefinition := d, pxNext := none } :
      CLI_Definition_List_Item_t)])[st.pxLastCommandInList]? =
        some st.items[st.pxLastCommandInList] := by
    rw [List.getElem?_append_left hlt, List.getElem?_eq_getElem hlt]
  simp only [MidCLI_RegisterCommand, if_true, storeNext, h1]

theorem register_getElem? {σ : Type} (st : CLI_State σ) (hwf : WF st)
    (d : CLI_Command_Definition_t) (a : Nat) :
    (MidCLI_RegisterCommand st d true).2.items[a]? =
      if a < st.items.length then
        (st.items[a]?).map (fun it =>
          { it with pxNext := if a + 1 = st.items.length then some st.items.length
                              else it.pxNext })
      else if a = st.items.length then
        some { pxCommandLineDefinition := d, pxNext := none }
      else none := by
  obtain ⟨last, hlast, hitems⟩ := register_items st hwf d
  have hl := hwf.2.2.1
  rw [hitems, List.getElem?_set]
  by_cases hal : st.pxLastCommandInList = a
  · subst hal
    have hlt : st.pxLastCommandInList < st.items.length := by omega
    rw [if_pos rfl, if_pos hlt, hlast]
    simp [hl, hlt]
    omega
  · rw [if_neg hal]
    by_cases hlt : a < st.items.length
    · rw [if_pos hlt, List.getElem?_append_left hlt]
      have hne : ¬ (a + 1 = st.items.length) := by omega
      simp only [hne, if_false]
      cases st.items[a]? <;> rfl
    · rw [if_neg hlt, List.getElem?_append_right (by omega)]
      by_cases heq : a = st.items.length
      · rw [if_pos heq, heq]; simp
      · rw [if_neg heq]
        have : a - st.items.length ≠ 0 := by omega
        rw [List.getElem?_eq_none]
        simp only [List.length_singleton]
        omega

theorem register_length {σ : Type} (st : CLI_State σ) (hwf : WF st)
    (d : CLI_Command_Definition_t) :
    (MidCLI_RegisterCommand st d true).2.items.length = st.items.length + 1 := by
  obtain ⟨last, _, hitems⟩ := register_items st hwf d
  rw [hitems]
  simp

/-- Registration keeps the state well formed. -/
theorem WF_register {σ : Type} (st : CLI_State σ) (hwf : WF st)
    (d : CLI_Command_Definition_t) : WF (MidCLI_RegisterCommand st d true).2 := by
  have hlen := register_length st hwf d
  refine ⟨by omega, ?_, ?_, ?_, ?_⟩
  · intro a ha
    rw [hlen] at ha ⊢
    rw [register_getElem? st hwf d a]
    by_cases hlt : a < st.items.length
    · rw [if_pos hlt]
      obtain ⟨it, hit, hnext⟩ := hwf.2.1.item hlt
      rw [hit]
      simp only [Option.map_some', Option.some.injEq]
      by_cases h1 : a + 1 = st.items.length
      · rw [if_pos h1, if_pos (by omega), h1]
      · rw [if_neg h1, hnext, if_pos (by omega), if_pos (by omega)]
    · have heq : a = st.items.length := by omega
      rw [if_neg hlt, if_pos heq]
      simp only [Option.map_some', Option.some.injEq]
      rw [if_neg (by omega)]
  · rw [hlen]; rfl
  · have h := hwf.2.2.2.1
    have hc : (MidCLI_RegisterCommand st d true).2.pxCommand = st.pxCommand := rfl
    rw [hc]
    unfold ValidPtr at h ⊢
    cases hp : st.pxCommand with
    | none => trivial
    | some a => rw [hp] at h; dsimp only at h ⊢; omega
  · have h := hwf.2.2.2.2
    have hc : (MidCLI_RegisterCommand st d true).2.prvHelpCommand_pxCommand =
        st.prvHelpCommand_pxCommand := rfl
    rw [hc]
    unfold ValidPtr at h ⊢
    cases hp : st.prvHelpCommand_pxCommand with
    | none => trivial
    | some a => rw [hp] at h; dsimp only at h ⊢; omega

/-- Registration appends the definition to the registry. -/
theorem registry_register {σ : Type} (st : CLI_State σ) (hwf : WF st)
    (d : CLI_Command_Definition_t) :
    registry (MidCLI_RegisterCommand st d true).2 = registry st ++ [d] := by
  apply List.ext_getElem?
  intro a
  rw [registry_getElem? _ (WF_register st hwf d), register_getElem? st hwf d a]
  by_cases hlt : a < st.items.length
  · rw [if_pos hlt, List.getElem?_append_left (by rw [registry_length st hwf]; exact hlt),
      registry_getElem? st hwf]
    cases st.items[a]? <;> rfl
  · rw [if_neg hlt, List.getElem?_append_right (by rw [registry_length st hwf]; omega),
      registry_length st hwf]
    by_cases heq : a = st.items.length
    · rw [if_pos heq, heq]; simp
    · rw [if_neg heq]
      rw [List.getElem?_eq_none]
      · rfl
      · simp only [List.length_singleton]
        omega

/-! ## The help handler -/

theorem WF_setHelp {σ : Type} (st : CLI_State σ) (hwf : WF st) (p : Option Nat)
    (hp : ValidPtr st.items p) : WF { st with prvHelpCommand_pxCommand := p } :=
  ⟨hwf.1, hwf.2.1, hwf.2.2.1, hwf.2.2.2.1, hp⟩

theorem validPtr_helpCursor (items : List CLI_Definition_List_Item_t) (j : Nat)
    (hj : j < items.length) : ValidPtr items (helpCursor j) := by
  unfold helpCursor ValidPtr
  split_ifs
  · trivial
  · exact hj

theorem help_step {σ : Type} (st : CLI_State σ) (hwf : WF st) (j : Nat)
    (hj : j < st.items.length) (hcur : st.prvHelpCommand_pxCommand = helpCursor j)
    (buf : Nat → Nat) (cap : Nat) (input : List Nat) :
    ∃ it, st.items[j]? = some it ∧
      prvHelpCommand st buf cap input =
        some (if j + 1 < st.items.length then pdTRUE else pdFALSE,
              strncpy buf it.pxCommandLineDefinition.pcHelpString cap,
              { st with prvHelpCommand_pxCommand :=
                  helpCursor ((j + 1) % st.items.length) }) := by
  obtain ⟨it, hit, hnext⟩ := hwf.2.1.item hj
  refine ⟨it, hit, ?_⟩
  have hidx : (match st.prvHelpCommand_pxCommand with
      | none => 0
      | some a => a) = j := by
    rw [hcur]
    unfold helpCursor
    split_ifs with h0
    · exact h0.symm
    · rfl
  simp only [prvHelpCommand, hidx, hit, hnext]
  by_cases h1 : j + 1 < st.items.length
  · have hm : (j + 1) % st.items.length = j + 1 := Nat.mod_eq_of_lt h1
    simp [h1, hm, helpCursor]
  · have hm : (j + 1) % st.items.length = 0 := by
      have : j + 1 = st.items.length := by omega
      rw [this]; exact Nat.mod_self _
    simp [h1, hm, helpCursor]

/-- The calls of `prvHelpCommand` go round the registry: from the cursor at
entry `j`, call `k` copies the help text of entry `(j + k) % n` and returns
`pdTRUE` unless that entry is the last. -/
theorem helpRun_spec {σ : Type} (args : List ((Nat → Nat) × Nat × List Nat)) :
    ∀ (st : CLI_State σ) (j : Nat), WF st → j < st.items.length →
      st.prvHelpCommand_pxCommand = helpCursor j →
      ∃ outs, helpRun st args =
          some ({ st with prvHelpCommand_pxCommand :=
                    helpCursor ((j + args.length) % st.items.length) }, outs) ∧
        outs.length = args.length ∧
        ∀ k x d, args[k]? = some x → (registry st)[(j + k) % st.items.length]? = some d →
          outs[k]? = some (if (j + k) % st.items.length + 1 < st.items.length
                            then pdTRUE else pdFALSE,
                           strncpy x.1 d.pcHelpString x.2.1) := by
  induction args with
  | nil =>
    intro st j hwf hj hcur
    refine ⟨[], ?_, rfl, ?_⟩
    · simp only [helpRun, List.length_nil, Nat.add_zero, Nat.mod_eq_of_lt hj]
      rw [← hcur]
    · intro k x d hx
      simp at hx
  | cons x rest ih =>
    intro st j hwf hj hcur
    obtain ⟨it, hit, hstep⟩ := help_step st hwf j hj hcur x.1 x.2.1 x.2.2
    have hj1 : (j + 1) % st.items.length < st.items.length := Nat.mod_lt _ hwf.1
    obtain ⟨outs, hrun, hlen, houts⟩ := ih
      { st with prvHelpCommand_pxCommand := helpCursor ((j + 1) % st.items.length) }
      ((j + 1) % st.items.length)
      (WF_setHelp st hwf _ (validPtr_helpCursor _ _ hj1)) hj1 rfl
    have hmod : ∀ k, ((j + 1) % st.items.length + k) % st.items.length
        = (j + (k + 1)) % st.items.length := by
      intro k
      rw [Nat.mod_add_mod]
      congr 1
      omega
    refine ⟨((if j + 1 < st.items.length then pdTRUE else pdFALSE),
      strncpy x.1 it.pxCommandLineDefinition.pcHelpString x.2.1) :: outs, ?_,
      by simp [hlen], ?_⟩
    · simp only [helpRun, hstep, hrun, Option.map_some', List.length_cons]
      rw [hmod]
    · intro k y d hy hd
      cases k with
      | zero =>
        simp only [List.getElem?_cons_zero, Option.some.injEq] at hy
        subst hy
        rw [Nat.add_zero, Nat.mod_eq_of_lt hj, registry_getElem? st hwf, hit] at hd
        simp only [Option.map_some', Option.some.injEq] at hd
        subst hd
        simp only [List.getElem?_cons_zero, Nat.add_zero, Nat.mod_eq_of_lt hj]
      | succ k =>
        simp only [List.getElem?_cons_succ] at hy ⊢
        have h2 := houts k y d hy
        simp only [hmod] at h2
        exact h2 hd

/-! ## Tokens are the maximal runs of non-space characters -/

theorem drop_cons_getElem? {s : List Nat} {p c : Nat} {rest : List Nat}
    (h : s.drop p = c :: rest) : s[p]? = some c ∧ s.drop (p + 1) = rest ∧ p < s.length := by
  have hlt : p < s.length := by
    by_contra hge
    rw [List.drop_eq_nil_of_le (by omega)] at h
    cases h
  rw [List.drop_eq_getElem_cons hlt] at h
  injection h with h1 h2
  exact ⟨by rw [List.getElem?_eq_getElem hlt, h1], h2, hlt⟩

/-- Every entry that the scanner yields is a token of the line, and all of
them start at or after the run being read. -/
theorem tokensFrom_isToken (s : List Nat) (rest : List Nat) :
    ∀ p, s.drop p = rest →
      (p ≤ s.length → (p = 0 ∨ s[p - 1]? = some SPACE) →
        ∀ t ∈ tokensFrom rest p none, IsToken s t ∧ p ≤ t.1) ∧
      (∀ r : Nat × Nat, 0 < r.2 → r.1 + r.2 = p → p ≤ s.length →
        (∀ j, r.1 ≤ j → j < p → s[j]? ≠ some SPACE) →
        (r.1 = 0 ∨ s[r.1 - 1]? = some SPACE) →
        ∀ t ∈ tokensFrom rest p (some r), IsToken s t ∧ r.1 ≤ t.1) := by
  induction rest with
  | nil =>
    intro p hdrop
    have hp : s.length ≤ p := List.drop_eq_nil_iff.mp hdrop
    constructor
    · intro _ _ t ht
      simp [tokensFrom] at ht
    · intro r h0 hsum hle hrun hstart t ht
      simp only [tokensFrom, List.mem_singleton] at ht
      subst ht
      refine ⟨⟨h0, by omega, ?_, hstart, Or.inl (by omega)⟩, Nat.le_refl _⟩
      intro j h1 h2
      exact hrun j h1 (by omega)
  | cons c cs ih =>
    intro p hdrop
    obtain ⟨hc, hdrop1, hlt⟩ := drop_cons_getElem? hdrop
    obtain ⟨ihn, ihs⟩ := ih (p + 1) hdrop1
    constructor
    · intro _ hstart t ht
      by_cases hsp : c = SPACE
      · simp only [tokensFrom, hsp, if_true] at ht
        have := ihn (by omega) (Or.inr (by simpa [hsp] using hc)) t ht
        exact ⟨this.1, by omega⟩
      · simp only [tokensFrom, hsp, if_false] at ht
        refine ihs (p, 1) Nat.zero_lt_one rfl (by omega) ?_ hstart t ht
        intro j h1 h2
        have : j = p := by simp only at h1; omega
        subst this
        rw [hc]
        simpa using hsp
    · intro r h0 hsum hle hrun hstart t ht
      by_cases hsp : c = SPACE
      · simp only [tokensFrom, hsp, if_true, List.mem_cons] at ht
        rcases ht with rfl | ht
        · refine ⟨⟨h0, by omega, ?_, hstart, Or.inr ?_⟩, Nat.le_refl _⟩
          · intro j h1 h2
            exact hrun j h1 (by omega)
          · rw [hsum, hc, hsp]
        · have := ihn (by omega) (Or.inr (by simpa [hsp] using hc)) t ht
          exact ⟨this.1, by omega⟩
      · simp only [tokensFrom, hsp, if_false] at ht
        refine ihs (r.1, r.2 + 1) (Nat.succ_pos _) (by simp only; omega) (by omega) ?_ hstart
          t ht
        intro j h1 h2
        by_cases hj : j < p
        · exact hrun j h1 hj
        · have : j = p := by omega
          subst this
          rw [hc]
          simpa using hsp

/-- Every entry of `tokens` is a maximal run of non-space characters. -/
theorem tokens_isToken (s : List Nat) : ∀ t ∈ tokens s, IsToken s t := by
  intro t ht
  exact ((tokensFrom_isToken s s 0 rfl).1 (Nat.zero_le _) (Or.inl rfl) t ht).1

/-- Every character that is not a space lies in an entry that the scanner
yields. -/
theorem tokensFrom_cover (s : List Nat) (rest : List Nat) :
    ∀ p, s.drop p = rest →
      (∀ j c, p ≤ j → s[j]? = some c → c ≠ SPACE →
        ∃ t ∈ tokensFrom rest p none, t.1 ≤ j ∧ j < t.1 + t.2) ∧
      (∀ r : Nat × Nat, r.1 + r.2 = p →
        ∀ j c, r.1 ≤ j → s[j]? = some c → c ≠ SPACE →
          ∃ t ∈ tokensFrom rest p (some r), t.1 ≤ j ∧ j < t.1 + t.2) := by
  induction rest with
  | nil =>
    intro p hdrop
    have hp : s.length ≤ p := List.drop_eq_nil_iff.mp hdrop
    constructor
    · intro j c hj hc _
      have : s[j]? = none := List.getElem?_eq_none (by omega)
      rw [this] at hc
      cases hc
    · intro r hsum j c hj hc _
      have hjl : j < s.length := by
        by_contra hge
        rw [List.getElem?_eq_none (by omega)] at hc
        cases hc
      exact ⟨r, by simp [tokensFrom], hj, by omega⟩
  | cons d ds ih =>
    intro p hdrop
    obtain ⟨hd, hdrop1, hlt⟩ := drop_cons_getElem? hdrop
    obtain ⟨ihn, ihs⟩ := ih (p + 1) hdrop1
    constructor
    · intro j c hj hc hne
      by_cases hsp : d = SPACE
      · simp only [tokensFrom, hsp, if_true]
        have hjp : j ≠ p := by
          rintro rfl
          rw [hd] at hc
          injection hc with hc
          exact hne (hc ▸ hsp)
        exact ihn j c (by omega) hc hne
      · simp only [tokensFrom, hsp, if_false]
        exact ihs (p, 1) rfl j c hj hc hne
    · intro r hsum j c hj hc hne
      by_cases hsp : d = SPACE
      · simp only [tokensFrom, hsp, if_true, List.mem_cons, exists_eq_or_imp]
        by_cases hjp : j < p
        · exact Or.inl ⟨hj, by omega⟩
        · have hjp2 : j ≠ p := by
            rintro rfl
            rw [hd] at hc
            injection hc with hc
            exact hne (hc ▸ hsp)
          exact Or.inr (ihn j c (by omega) hc hne)
      · simp only [tokensFrom, hsp, if_false]
        exact ihs (r.1, r.2 + 1) (by simp only; omega) j c hj hc hne

/-- Every character of the line that is not a space lies in an entry of
`tokens`. -/
theorem tokens_cover (s : List Nat) (j c : Nat) (hc : s[j]? = some c) (hne : c ≠ SPACE) :
    ∃ t ∈ tokens s, t.1 ≤ j ∧ j < t.1 + t.2 :=
  (tokensFrom_cover s s 0 rfl).1 j c (Nat.zero_le _) hc hne

/-- The entries that the scanner yields are in the order of the line, each
ending before the next starts. -/
theorem tokensFrom_sorted (rest : List Nat) :
    ∀ p, ((tokensFrom rest p none).Pairwise (fun t u => t.1 + t.2 < u.1) ∧
        ∀ t ∈ tokensFrom rest p none, p ≤ t.1) ∧
      (∀ r : Nat × Nat, r.1 + r.2 = p →
        (tokensFrom rest p (some r)).Pairwise (fun t u => t.1 + t.2 < u.1) ∧
        ∀ t ∈ tokensFrom rest p (some r), r.1 ≤ t.1 ∧ (t.1 = r.1 ∨ p < t.1)) := by
  induction rest with
  | nil =>
    intro p
    refine ⟨⟨by simp [tokensFrom], by simp [tokensFrom]⟩, ?_⟩
    intro r _
    simp [tokensFrom]
  | cons d ds ih =>
    intro p
    obtain ⟨⟨ihn1, ihn2⟩, ihs⟩ := ih (p + 1)
    constructor
    · by_cases hsp : d = SPACE
      · simp only [tokensFrom, hsp, if_true]
        exact ⟨ihn1, fun t ht => by have := ihn2 t ht; omega⟩
      · simp only [tokensFrom, hsp, if_false]
        obtain ⟨h1, h2⟩ := ihs (p, 1) rfl
        exact ⟨h1, fun t ht => (h2 t ht).1⟩
    · intro r hsum
      by_cases hsp : d = SPACE
      · simp only [tokensFrom, hsp, if_true, List.pairwise_cons, List.mem_cons]
        refine ⟨⟨fun u hu => by have := ihn2 u hu; omega, ihn1⟩, ?_⟩
        rintro t (rfl | ht)
        · exact ⟨Nat.le_refl _, Or.inl rfl⟩
        · have := ihn2 t ht
          exact ⟨by omega, Or.inr (by omega)⟩
      · simp only [tokensFrom, hsp, if_false]
        obtain ⟨h1, h2⟩ := ihs (r.1, r.2 + 1) (by simp only; omega)
        refine ⟨h1, fun t ht => ?_⟩
        obtain ⟨h3, h4⟩ := h2 t ht
        exact ⟨h3, h4.imp id (fun h => by omega)⟩

/-- The entries of `tokens` are in the order of the line. -/
theorem tokens_sorted (s : List Nat) :
    (tokens s).Pairwise (fun t u => t.1 + t.2 < u.1) :=
  (tokensFrom_sorted s 0).1.1

/-! ## Trailing spaces -/

theorem tokensFrom_spaces (k : Nat) :
    ∀ p, tokensFrom (List.replicate k SPACE) p none = [] ∧
      ∀ r, tokensFrom (List.replicate k SPACE) p (some r) = [r] := by
  induction k with
  | zero => intro p; simp [tokensFrom]
  | succ k ih =>
    intro p
    simp only [List.replicate_succ, tokensFrom, if_true]
    exact ⟨(ih (p + 1)).1, fun r => by rw [(ih (p + 1)).1]⟩

/-- Spaces at the end of a line add no token and move none. -/
theorem tokensFrom_append_spaces (s : List Nat) (k : Nat) :
    ∀ p, tokensFrom (s ++ List.replicate k SPACE) p none = tokensFrom s p none ∧
      ∀ r, tokensFrom (s ++ List.replicate k SPACE) p (some r) = tokensFrom s p (some r) := by
  induction s with
  | nil =>
    intro p
    simp only [List.nil_append, tokensFrom]
    exact tokensFrom_spaces k p
  | cons c cs ih =>
    intro p
    by_cases hc : c = SPACE
    · simp only [List.cons_append, tokensFrom, hc, if_true]
      exact ⟨(ih (p + 1)).1, fun r => congrArg (List.cons r) (ih (p + 1)).1⟩
    · simp only [List.cons_append, tokensFrom, hc, if_false]
      exact ⟨(ih (p + 1)).2 _, fun r => (ih (p + 1)).2 _⟩

theorem tokens_append_spaces (s : List Nat) (k : Nat) :
    tokens (s ++ List.replicate k SPACE) = tokens s :=
  (tokensFrom_append_spaces s k 0).1

theorem countedTokens_append_spaces (s : List Nat) (k : Nat) :
    countedTokens (s ++ List.replicate k SPACE) = countedTokens s := by
  unfold countedTokens
  rw [tokens_append_spaces]
  cases s with
  | nil =>
    cases k with
    | zero => rfl
    | succ k => simp [tokens, tokensFrom, List.replicate_succ]
  | cons c cs => rfl

/-! ## Calls return in a well-formed state -/

theorem scan_total (items : List CLI_Definition_List_Item_t) (input : List Nat)
    (beyond : Nat → Nat) (hc : ChainOk items) :
    ∀ fuel a, a ≤ items.length → items.length < a + fuel →
      ∃ r, MidCLI_ProcessCommand.scan items input beyond fuel (ptr items a) = some r := by
  intro fuel
  induction fuel with
  | zero => intro a h1 h2; omega
  | succ fuel ih =>
    intro a h1 h2
    by_cases hlt : a < items.length
    · obtain ⟨it, hit, hnext⟩ := hc.item hlt
      have hnext2 : it.pxNext = ptr items (a + 1) := hnext
      have hp : ptr items a = some a := by unfold ptr; rw [if_pos hlt]
      rw [hp]
      by_cases hm : CodeMatch it.pxCommandLineDefinition.pcCommand input beyond
      · rw [scan_step_eq hit hm]
        exact ⟨_, rfl⟩
      · rw [scan_step_ne hit hm, hnext2]
        obtain ⟨r, hr⟩ := ih (a + 1) (by omega) (by omega)
        rw [hr]
        exact ⟨_, rfl⟩
    · have hp : ptr items a = none := by unfold ptr; rw [if_neg hlt]
      rw [hp]
      exact ⟨_, rfl⟩

theorem search_total {σ : Type} (st : CLI_State σ) (hwf : WF st) (input : List Nat)
    (beyond : Nat → Nat) :
    ∃ r, MidCLI_ProcessCommand.search st input beyond = some r := by
  unfold MidCLI_ProcessCommand.search
  cases hc : st.pxCommand with
  | none =>
    have h0 : some 0 = ptr st.items 0 := by
      unfold ptr; rw [if_pos hwf.1]
    dsimp only
    rw [h0]
    exact scan_total st.items input beyond hwf.2.1 _ 0 (Nat.zero_le _) (by omega)
  | some a => exact ⟨_, rfl⟩

/-- A call of `MidCLI_ProcessCommand` in a well-formed state returns. -/
theorem process_total {σ : Type} (app : AppHandlers σ) (st : CLI_State σ) (hwf : WF st)
    (input : List Nat) (beyond : Nat → Nat) (buf : Nat → Nat) (cap : Nat) :
    ∃ res, MidCLI_ProcessCommand app st input beyond buf cap = some res := by
  obtain ⟨⟨p, x, ev⟩, hs⟩ := search_total st hwf input beyond
  obtain ⟨_, hp⟩ := search_shape st hwf input beyond _ hs
  unfold MidCLI_ProcessCommand
  rw [hs]
  cases p with
  | none => exact ⟨_, rfl⟩
  | some a =>
    dsimp only
    by_cases hx : x = pdFALSE
    · rw [if_pos hx]
      exact ⟨_, rfl⟩
    · rw [if_neg hx]
      have ha : a < st.items.length := hp
      rw [List.getElem?_eq_getElem ha]
      dsimp only
      obtain ⟨⟨ret, buf1, st1⟩, hcall⟩ := callInterpreter_total app
        { st with pxCommand := some a } (WF_setCommand st hwf (some a) hp)
        st.items[a].pxCommandLineDefinition.pxCommandInterpreter buf cap input
      rw [hcall]
      exact ⟨_, rfl⟩

theorem register_fail {σ : Type} (st : CLI_State σ) (d : CLI_Command_Definition_t) :
    MidCLI_RegisterCommand st d false = (pdFAIL, st) := rfl

theorem WF_registerCommand {σ : Type} (st : CLI_State σ) (hwf : WF st)
    (d : CLI_Command_Definition_t) (mallocOk : Bool) :
    WF (MidCLI_RegisterCommand st d mallocOk).2 := by
  cases mallocOk with
  | true => exact WF_register st hwf d
  | false => exact hwf

/-- Every reachable state is well formed. -/
theorem Reachable.wf {σ : Type} {app : AppHandlers σ} {s0 : σ} {st : CLI_State σ}
    (h : Reachable app s0 st) : WF st := by
  induction h with
  | init => exact WF_initialState s0
  | register st d ok _ _ ih => exact WF_registerCommand st ih d ok
  | process st input beyond buf cap res _ hres ih =>
    exact (process_shape app st input beyond buf cap ih res hres).1

/-! ## Sequences of registrations -/

theorem WF_registerAll {σ : Type} (calls : List (CLI_Command_Definition_t × Bool)) :
    ∀ st : CLI_State σ, WF st → WF (registerAll st calls) := by
  induction calls with
  | nil => intro st h; exact h
  | cons c rest ih =>
    intro st h
    exact ih _ (WF_registerCommand st h c.1 c.2)

theorem registerAll_append {σ : Type} (calls1 calls2 : List (CLI_Command_Definition_t × Bool)) :
    ∀ st : CLI_State σ,
      registerAll st (calls1 ++ calls2) = registerAll (registerAll st calls1) calls2 := by
  induction calls1 with
  | nil => intro st; rfl
  | cons c rest ih => intro st; exact ih _

/-- A sequence of registrations only appends to the registry: the registry
after it is the registry before it followed by the definitions whose
allocation succeeded, in the order of the calls. -/
theorem registry_registerAll {σ : Type} (calls : List (CLI_Command_Definition_t × Bool)) :
    ∀ st : CLI_State σ, WF st →
      registry (registerAll st calls) =
        registry st ++ (calls.filter (fun c => c.2)).map (fun c => c.1) := by
  induction calls with
  | nil => intro st _; simp [registerAll]
  | cons c rest ih =>
    intro st h
    obtain ⟨d, ok⟩ := c
    simp only [registerAll]
    rw [ih _ (WF_registerCommand st h d ok)]
    cases ok with
    | true => rw [registry_register st h d]; simp
    | false => simp [register_fail]

theorem registry_initialState {σ : Type} (s0 : σ) :
    registry (initialState s0) = [xHelpCommand] := rfl

/-! ## Writes of the buffer -/

/-- `strncpy` writes the message truncated to the capacity. -/
theorem strncpy_truncatedWrite (dst : Nat → Nat) (m : List Nat) (c : Nat) :
    TruncatedWrite dst m c (strncpy dst m c) := by
  refine ⟨?_, ?_, ?_⟩
  · intro i hi
    have h1 : i < c := by omega
    have h2 : i < m.length := by omega
    simp only [strncpy, if_pos h1, List.getD_eq_getElem?_getD, List.getElem?_eq_getElem h2,
      Option.getD_some]
  · intro i hi hc
    have h2 : m.length ≤ i := by omega
    simp only [strncpy, if_pos hc, List.getD_eq_getElem?_getD, List.getElem?_eq_none h2,
      Option.getD_none]
  · intro i hi
    have h1 : ¬ i < c := by omega
    simp only [strncpy, if_neg h1]

/-- A message shorter than the capacity is written whole and terminated. -/
theorem strncpy_terminated (dst : Nat → Nat) (m : List Nat) (c : Nat) (h : m.length < c) :
    firstBytes (strncpy dst m c) (m.length + 1) = m ++ [0] := by
  apply List.ext_getElem
  · simp [firstBytes]
  · intro i h1 h2
    have hi : i < m.length + 1 := by simpa [firstBytes] using h1
    have hc : i < c := by omega
    simp only [firstBytes, List.getElem_map, List.getElem_range, strncpy, if_pos hc]
    by_cases hlt : i < m.length
    · simp [List.getD_eq_getElem?_getD, List.getElem?_eq_getElem hlt,
        List.getElem_append_left hlt]
    · have : i = m.length := by omega
      subst this
      simp [List.getD_eq_getElem?_getD]

/-- What `prvHelpCommand` does in a well-formed state: it returns, and the
buffer it leaves is the copy of the help string of an entry of the registry. -/
theorem prvHelpCommand_write {σ : Type} (st : CLI_State σ) (hwf : WF st) (buf : Nat → Nat)
    (cap : Nat) (input : List Nat) :
    ∃ ret st1 d, d ∈ registry st ∧
      prvHelpCommand st buf cap input = some (ret, strncpy buf d.pcHelpString cap, st1) := by
  have hidx : (match st.prvHelpCommand_pxCommand with
      | none => 0
      | some a => a) < st.items.length := by
    have hv := hwf.2.2.2.2
    cases hc : st.prvHelpCommand_pxCommand with
    | none => exact hwf.1
    | some a => rw [hc] at hv; exact hv
  refine ⟨if (st.items.get ⟨_, hidx⟩).pxNext = none then pdFALSE else pdTRUE,
    { st with prvHelpCommand_pxCommand := (st.items.get ⟨_, hidx⟩).pxNext },
    (st.items.get ⟨_, hidx⟩).pxCommandLineDefinition, ?_, ?_⟩
  · rw [registry_eq st hwf]
    exact List.mem_map_of_mem _ (List.get_mem _ _ _)
  · simp only [prvHelpCommand, List.getElem?_eq_getElem hidx, List.get_eq_getElem]

/-! ## The help cursor and the active command -/

/-- The two ways a call of `MidCLI_ProcessCommand` ends: without a handler call,
from Idle and with the state unchanged, or with the call of the handler of an
item that was found from Idle or was the active command. -/
theorem process_cases {σ : Type} (app : AppHandlers σ) (st : CLI_State σ)
    (input : List Nat) (beyond : Nat → Nat) (buf : Nat → Nat) (cap : Nat)
    (res : CLI_Result σ)
    (h : MidCLI_ProcessCommand app st input beyond buf cap = some res) :
    (st.pxCommand = none ∧ res.state = { st with pxCommand := none }) ∨
    (∃ a it ret buf1 st1, (st.pxCommand = none ∨ st.pxCommand = some a) ∧
      st.items[a]? = some it ∧
      callInterpreter app { st with pxCommand := some a }
        it.pxCommandLineDefinition.pxCommandInterpreter buf cap input
          = some (ret, buf1, st1) ∧
      res.state = { st1 with pxCommand := if ret = pdFALSE then none else some a } ∧
      res.xReturn = ret ∧ res.pcWriteBuffer = buf1) := by
  unfold MidCLI_ProcessCommand at h
  cases hs : MidCLI_ProcessCommand.search st input beyond with
  | none => rw [hs] at h; cases h
  | some r =>
    obtain ⟨p, x, ev⟩ := r
    rw [hs] at h
    have hstream : ∀ b, st.pxCommand = some b → p = some b ∧ x = pdTRUE := by
      intro b hb
      unfold MidCLI_ProcessCommand.search at hs
      rw [hb] at hs
      simp only [Option.some.injEq, Prod.mk.injEq] at hs
      exact ⟨hs.1.symm, hs.2.1.symm⟩
    cases p with
    | none =>
      simp only [Option.some.injEq] at h
      subst h
      left
      refine ⟨?_, rfl⟩
      cases hc : st.pxCommand with
      | none => rfl
      | some b => exact absurd (hstream b hc).1 (by simp)
    | some a =>
      dsimp only at h
      by_cases hx : x = pdFALSE
      · rw [if_pos hx] at h
        simp only [Option.some.injEq] at h
        subst h
        left
        refine ⟨?_, rfl⟩
        cases hc : st.pxCommand with
        | none => rfl
        | some b =>
          have := (hstream b hc).2
          rw [hx] at this
          exact absurd this (by decide)
      · rw [if_neg hx] at h
        cases hit : st.items[a]? with
        | none => rw [hit] at h; cases h
        | some it =>
          rw [hit] at h
          dsimp only at h
          cases hcall : callInterpreter app { st with pxCommand := some a }
              it.pxCommandLineDefinition.pxCommandInterpreter buf cap input with
          | none => rw [hcall] at h; cases h
          | some y =>
            obtain ⟨ret, buf1, st1⟩ := y
            rw [hcall] at h
            simp only [Option.some.injEq] at h
            subst h
            right
            refine ⟨a, it, ret, buf1, st1, ?_, hit, hcall, rfl, rfl, rfl⟩
            cases hc : st.pxCommand with
            | none => exact Or.inl rfl
            | some b =>
              have := (hstream b hc).1
              simp only [Option.some.injEq] at this
              rw [this]
              exact Or.inr rfl

theorem HelpInv_initialState {σ : Type} (s0 : σ) : HelpInv (initialState s0) := by
  refine ⟨WF_initialState s0, rfl, ?_, fun h => absurd rfl h⟩
  intro a it hit _
  by_contra ha
  have : (initialState s0).items[a]? = none :=
    List.getElem?_eq_none (by simp only [initialState, List.length_singleton]; omega)
  rw [this] at hit
  cases hit

theorem HelpInv_register {σ : Type} (st : CLI_State σ) (h : HelpInv st)
    (d : CLI_Command_Definition_t) (hd : IsAppDefinition d) (mallocOk : Bool) :
    HelpInv (MidCLI_RegisterCommand st d mallocOk).2 := by
  cases mallocOk with
  | false => exact h
  | true =>
    obtain ⟨hwf, hhead, huniq, hcur⟩ := h
    refine ⟨WF_register st hwf d, ?_, ?_, hcur⟩
    · rw [register_getElem? st hwf d 0, if_pos hwf.1]
      cases h0 : st.items[0]? with
      | none => rw [h0] at hhead; cases hhead
      | some it0 =>
        rw [h0] at hhead
        simpa using hhead
    · intro a it hit hhelp
      rw [register_getElem? st hwf d a] at hit
      by_cases hlt : a < st.items.length
      · rw [if_pos hlt] at hit
        cases h0 : st.items[a]? with
        | none => rw [h0] at hit; cases hit
        | some it0 =>
          rw [h0] at hit
          simp only [Option.map_some', Option.some.injEq] at hit
          subst hit
          exact huniq a it0 h0 hhelp
      · rw [if_neg hlt] at hit
        by_cases heq : a = st.items.length
        · rw [if_pos heq] at hit
          simp only [Option.some.injEq] at hit
          subst hit
          exact absurd hhelp hd
        · rw [if_neg heq] at hit
          cases hit

theorem HelpInv_process {σ : Type} (app : AppHandlers σ) (st : CLI_State σ)
    (h : HelpInv st) (input : List Nat) (beyond : Nat → Nat) (buf : Nat → Nat) (cap : Nat)
    (res : CLI_Result σ)
    (hres : MidCLI_ProcessCommand app st input beyond buf cap = some res) :
    HelpInv res.state := by
  obtain ⟨hwf, hhead, huniq, hcur⟩ := h
  obtain ⟨hwf1, hitems, _⟩ := process_shape app st input beyond buf cap hwf res hres
  refine ⟨hwf1, by rw [hitems]; exact hhead, by rw [hitems]; exact huniq, ?_⟩
  rcases process_cases app st input beyond buf cap res hres with
    ⟨hidle, hst⟩ | ⟨a, it, ret, buf1, st1, hfrom, hit, hcall, hst, _, _⟩
  · intro hne
    rw [hst] at hne
    have : st.prvHelpCommand_pxCommand ≠ none := hne
    have := hcur this
    rw [hidle] at this
    cases this
  · cases hf : it.pxCommandLineDefinition.pxCommandInterpreter with
    | app addr =>
      rw [hf] at hcall
      simp only [callInterpreter, Option.some.injEq, Prod.mk.injEq] at hcall
      obtain ⟨_, _, rfl⟩ := hcall
      intro hne
      rw [hst] at hne
      have hne2 : st.prvHelpCommand_pxCommand ≠ none := hne
      have h0 := hcur hne2
      have ha : a = 0 := by
        rcases hfrom with h1 | h1
        · rw [h1] at h0; cases h0
        · rw [h1] at h0
          simpa using h0
      subst ha
      rw [hit] at hhead
      simp only [Option.map_some', Option.some.injEq] at hhead
      rw [hhead] at hf
      cases hf
    | prvHelpCommand =>
      have ha : a = 0 := huniq a it hit hf
      subst ha
      rw [hf] at hcall
      simp only [callInterpreter, prvHelpCommand] at hcall
      split at hcall
      · cases hcall
      · rename_i item _
        simp only [Option.some.injEq, Prod.mk.injEq] at hcall
        obtain ⟨hret, _, rfl⟩ := hcall
        intro hne
        rw [hst] at hne ⊢
        have hnext : item.pxNext ≠ none := hne
        have hret2 : ret ≠ pdFALSE := by
          rw [← hret, if_neg hnext]
          decide
        dsimp only
        rw [if_neg hret2]

/-- In every reachable state the help entry is the head of the list and the
help cursor is reset unless the help entry is the active command. -/
theorem Reachable.helpInv {σ : Type} {app : AppHandlers σ} {s0 : σ} {st : CLI_State σ}
    (h : Reachable app s0 st) : HelpInv st := by
  induction h with
  | init => exact HelpInv_initialState s0
  | register st d ok _ hd ih => exact HelpInv_register st ih d hd ok
  | process st input beyond buf cap res _ hres ih =>
    exact HelpInv_process app st ih input beyond buf cap res hres

/-- The line `help` entered from Idle, with the help entry at the head of the
list and the help cursor reset, calls the help handler, which copies the help
text of the help command itself. -/
theorem help_from_idle {σ : Type} (app : AppHandlers σ) (st : CLI_State σ) (h : HelpInv st)
    (hidle : st.pxCommand = none) (hreset : st.prvHelpCommand_pxCommand = none)
    (beyond : Nat → Nat) (buf : Nat → Nat) (cap : Nat) :
    ∃ res, MidCLI_ProcessCommand app st (bytes "help") beyond buf cap = some res ∧
      handlerCalls res = [CLI_Event.invoked 0 buf cap (bytes "help")] ∧
      res.pcWriteBuffer = strncpy buf xHelpCommand.pcHelpString cap := by
  obtain ⟨hwf, hhead, _, _⟩ := h
  cases h0 : st.items[0]? with
  | none => rw [h0] at hhead; cases hhead
  | some it0 =>
    rw [h0] at hhead
    simp only [Option.map_some', Option.some.injEq] at hhead
    have hm : CodeMatch it0.pxCommandLineDefinition.pcCommand (bytes "help") beyond := by
      rw [hhead]
      exact (codeMatch_iff _ _ beyond (by decide) (by decide)).mpr (by decide)
    have hscan := @scan_step_eq st.items (bytes "help") beyond st.items.length 0 it0 h0 hm
    have hcount : prvGetNumberOfParameters (bytes "help") = 0 := by decide
    have hexp : it0.pxCommandLineDefinition.cExpectedNumberOfParameters = 0 := by
      rw [hhead]; rfl
    have hhelp : it0.pxCommandLineDefinition.pxCommandInterpreter
        = pdCOMMAND_LINE_CALLBACK.prvHelpCommand := by
      rw [hhead]; rfl
    have htext : it0.pxCommandLineDefinition.pcHelpString = xHelpCommand.pcHelpString := by
      rw [hhead]
    rw [hexp, hcount] at hscan
    simp only [ge_iff_le, le_refl, ne_eq, not_true_eq_false, and_false, if_false, if_true]
      at hscan
    have hsearch : MidCLI_ProcessCommand.search st (bytes "help") beyond =
        some (some 0, pdTRUE, [CLI_Event.examined 0, CLI_Event.counted 0]) := by
      unfold MidCLI_ProcessCommand.search
      rw [hidle]
      exact hscan
    have hne : ¬ (pdTRUE = pdFALSE) := by decide
    obtain ⟨res, hres⟩ := process_total app st hwf (bytes "help") beyond buf cap
    have h2 := hres
    simp only [MidCLI_ProcessCommand, hsearch, if_neg hne, h0, hhelp, callInterpreter,
      prvHelpCommand, hreset, Option.some.injEq] at h2
    subst h2
    exact ⟨_, hres, rfl, by simp only [htext]⟩

/-! # The claims -/

/-- C1 (command selection): from Idle on a well-formed state, for an input line
and registered names that are C strings, `MidCLI_ProcessCommand` returns and
the command its search selects is the first entry of the registry, in
registration order, whose name is a byte-prefix of the input followed there by
a space or the end of the line; it selects nothing iff no entry is such; of two
entries with the same name the later one is never selected; and the only
handler the call may invoke is the one of the selected entry. -/
theorem search_selects_first_match {σ : Type} (app : AppHandlers σ) (st : CLI_State σ)
    (input : List Nat) (beyond : Nat → Nat) (buf : Nat → Nat) (cap : Nat)
    (hwf : WF st) (hidle : st.pxCommand = none) (hi : NoNul input)
    (hn : ∀ d ∈ registry st, NoNul d.pcCommand) :
    ∃ r res, MidCLI_ProcessCommand.search st input beyond = some r ∧
      MidCLI_ProcessCommand app st input beyond buf cap = some res ∧
      (∀ a, r.1 = some a ↔ IsFirstMatch (registry st) input a) ∧
      (r.1 = none ↔ ∀ d ∈ registry st, ¬ Matches d.pcCommand input) ∧
      (∀ i j d e, i < j → (registry st)[i]? = some d → (registry st)[j]? = some e →
        d.pcCommand = e.pcCommand → r.1 ≠ some j) ∧
      (∀ e ∈ handlerCalls res, ∃ a, r.1 = some a ∧ e = CLI_Event.invoked a buf cap input) := by
  obtain ⟨r, res, hr, hres, hev, hcase⟩ := process_idle app st input beyond buf cap hwf hidle hi hn
  have hsel : (r.1 = none ∧ ∀ d ∈ registry st, ¬ Matches d.pcCommand input) ∨
      (∃ b, r.1 = some b ∧ IsFirstMatch (registry st) input b) := by
    rcases hcase with ⟨h1, h2, _⟩ | ⟨b, _, h1, h2, _⟩ | ⟨b, _, _, _, _, h1, h2, _⟩
    · exact Or.inl ⟨h1, h2⟩
    · exact Or.inr ⟨b, h1, h2⟩
    · exact Or.inr ⟨b, h1, h2⟩
  refine ⟨r, res, hr, hres, ?_, ?_, ?_, ?_⟩
  · intro a
    rcases hsel with ⟨h1, h2⟩ | ⟨b, h1, h2⟩
    · rw [h1]
      constructor
      · intro h; cases h
      · rintro ⟨⟨d, hd, hdm⟩, _⟩
        exact absurd hdm (h2 d (List.mem_iff_getElem?.mpr ⟨a, hd⟩))
    · rw [h1]
      constructor
      · intro h
        cases h
        exact h2
      · intro h
        rw [isFirstMatch_unique h h2]
  · rcases hsel with ⟨h1, h2⟩ | ⟨b, h1, h2⟩
    · exact ⟨fun _ => h2, fun _ => h1⟩
    · rw [h1]
      constructor
      · intro h; cases h
      · intro h
        obtain ⟨⟨d, hd, hdm⟩, _⟩ := h2
        exact absurd hdm (h d (List.mem_iff_getElem?.mpr ⟨b, hd⟩))
  · intro i j d e hij hd he hname hj
    rcases hsel with ⟨h1, _⟩ | ⟨b, h1, h2⟩
    · rw [h1] at hj; cases hj
    · rw [h1] at hj
      cases hj
      obtain ⟨⟨e2, he2, hem⟩, hfirst⟩ := h2
      have : e2 = e := by
        rw [he] at he2
        simp only [Option.mem_def, Option.some.injEq] at he2
        exact he2.symm
      subst this
      rw [← hname] at hem
      exact hfirst i hij d hd hem
  · intro e he
    rcases hcase with ⟨_, _, h3⟩ | ⟨b, _, _, _, _, _, h3⟩ | ⟨b, _, _, _, _, h1, _, _, _, _, h3⟩
    · subst h3
      rw [handlerCalls, handlerCalls_none hev] at he
      simp at he
    · subst h3
      rw [handlerCalls, handlerCalls_none hev] at he
      simp at he
    · subst h3
      rw [handlerCalls, handlerCalls_append hev] at he
      simp only [List.mem_singleton] at he
      exact ⟨b, h1, he⟩

/-- C1, at concrete lines: with `status` registered twice, the line
`status extra` selects the first `status` entry (address 1, never the later
one at address 3), and the line `statusx` selects nothing. -/
theorem search_selects_first_match_witness :
    (∃ r, MidCLI_ProcessCommand.search exampleState (bytes "status extra") (fun _ => 0)
        = some r ∧ r.1 = some 1 ∧ r.1 ≠ some 3) ∧
    (∃ r, MidCLI_ProcessCommand.search exampleState (bytes "statusx") (fun _ => 0)
        = some r ∧ r.1 = none) := by
  constructor
  · obtain ⟨r, _, hr, _, h1, _, h3, _⟩ := search_selects_first_match exampleApp exampleState
      (bytes "status extra") (fun _ => 0) exampleBuffer 100
      (by decide) (by decide) (by decide) (by decide)
    exact ⟨r, hr, (h1 1).mpr (by decide),
      h3 1 3 cmdStatus cmdStatusAgain (by decide) (by decide) (by decide) (by decide)⟩
  · obtain ⟨r, _, hr, _, _, h2, _, _⟩ := search_selects_first_match exampleApp exampleState
      (bytes "statusx") (fun _ => 0) exampleBuffer 100
      (by decide) (by decide) (by decide) (by decide)
    exact ⟨r, hr, h2.mpr (by decide)⟩

/-- C3 (command not found): from Idle on a well-formed state, when no
registered name matches the input line, `MidCLI_ProcessCommand` returns
`pdFALSE`, calls no handler, writes the text "Command not recognised.  Enter
'help' to view a list of available commands." with its line ends into the
write buffer (its bytes, then NULs, up to the buffer length; no byte beyond),
and leaves the state as it was, with no active command. -/
theorem command_not_found {σ : Type} (app : AppHandlers σ) (st : CLI_State σ)
    (input : List Nat) (beyond : Nat → Nat) (buf : Nat → Nat) (cap : Nat)
    (hwf : WF st) (hidle : st.pxCommand = none) (hi : NoNul input)
    (hn : ∀ d ∈ registry st, NoNul d.pcCommand)
    (hnone : ∀ d ∈ registry st, ¬ Matches d.pcCommand input) :
    ∃ res, MidCLI_ProcessCommand app st input beyond buf cap = some res ∧
      handlerCalls res = [] ∧
      (∀ i, i < cap → res.pcWriteBuffer i = msgNotRecognised.getD i 0) ∧
      (∀ i, cap ≤ i → res.pcWriteBuffer i = buf i) ∧
      res.xReturn = pdFALSE ∧ res.state.pxCommand = none ∧ res.state = st := by
  obtain ⟨r, res, hr, hres, hev, hcase⟩ := process_idle app st input beyond buf cap hwf hidle hi hn
  have hst : { st with pxCommand := none } = st := by
    cases st
    simp only at hidle
    subst hidle
    rfl
  rcases hcase with ⟨_, _, h3⟩ | ⟨b, _, _, h2, _⟩ | ⟨b, _, _, _, _, _, h2, _⟩
  · subst h3
    refine ⟨_, hres, handlerCalls_none hev, ?_, ?_, rfl, rfl, hst⟩
    · intro i hi
      simp only [strncpy, if_pos hi]
    · intro i hi
      have : ¬ i < cap := by omega
      simp only [strncpy, if_neg this]
  · obtain ⟨⟨d, hd, hdm⟩, _⟩ := h2
    exact absurd hdm (hnone d (List.mem_iff_getElem?.mpr ⟨b, hd⟩))
  · obtain ⟨⟨d, hd, hdm⟩, _⟩ := h2
    exact absurd hdm (hnone d (List.mem_iff_getElem?.mpr ⟨b, hd⟩))

/-- C3, at the line `statusx`, which no registered name matches. -/
theorem command_not_found_witness :
    ∃ res, MidCLI_ProcessCommand exampleApp exampleState (bytes "statusx") (fun _ => 32)
        exampleBuffer 100 = some res ∧
      handlerCalls res = [] ∧
      (∀ i, i < 100 → res.pcWriteBuffer i = msgNotRecognised.getD i 0) ∧
      (∀ i, 100 ≤ i → res.pcWriteBuffer i = exampleBuffer i) ∧
      res.xReturn = pdFALSE ∧ res.state.pxCommand = none ∧ res.state = exampleState :=
  command_not_found exampleApp exampleState (bytes "statusx") (fun _ => 32) exampleBuffer 100
    (by decide) (by decide) (by decide) (by decide) (by decide)

/-- C4 (parameter count mismatch): from Idle on a well-formed state, when the
selected command expects a number of parameters that is not negative and
`prvGetNumberOfParameters` returns another number for the input line,
`MidCLI_ProcessCommand` returns `pdFALSE`, calls no handler at all, writes the
text "Incorrect command parameter(s).  Enter "help" to view a list of available
commands." with its line ends into the write buffer, and leaves the state as
it was, with no active command. -/
theorem parameter_count_mismatch {σ : Type} (app : AppHandlers σ) (st : CLI_State σ)
    (input : List Nat) (beyond : Nat → Nat) (buf : Nat → Nat) (cap : Nat)
    (hwf : WF st) (hidle : st.pxCommand = none) (hi : NoNul input)
    (hn : ∀ d ∈ registry st, NoNul d.pcCommand)
    (a : Nat) (d : CLI_Command_Definition_t)
    (hsel : IsFirstMatch (registry st) input a) (hd : (registry st)[a]? = some d)
    (hk : 0 ≤ d.cExpectedNumberOfParameters)
    (hcount : prvGetNumberOfParameters input ≠ d.cExpectedNumberOfParameters) :
    ∃ res, MidCLI_ProcessCommand app st input beyond buf cap = some res ∧
      handlerCalls res = [] ∧
      (∀ i, i < cap → res.pcWriteBuffer i = msgIncorrectParameters.getD i 0) ∧
      (∀ i, cap ≤ i → res.pcWriteBuffer i = buf i) ∧
      res.xReturn = pdFALSE ∧ res.state.pxCommand = none ∧ res.state = st := by
  obtain ⟨r, res, hr, hres, hev, hcase⟩ := process_idle app st input beyond buf cap hwf hidle hi hn
  have hst : { st with pxCommand := none } = st := by
    cases st
    simp only at hidle
    subst hidle
    rfl
  rcases hcase with ⟨_, h2, _⟩ | ⟨b, it, _, h2, hit, _, h3⟩ | ⟨b, it, _, _, _, _, h2, hit, hok, _⟩
  · obtain ⟨⟨e, he, hem⟩, _⟩ := hsel
    exact absurd hem (h2 e (List.mem_iff_getElem?.mpr ⟨a, he⟩))
  · subst h3
    refine ⟨_, hres, handlerCalls_none hev, ?_, ?_, rfl, rfl, hst⟩
    · intro i hi
      simp only [strncpy, if_pos hi]
    · intro i hi
      have : ¬ i < cap := by omega
      simp only [strncpy, if_neg this]
  · exfalso
    have hab : a = b := isFirstMatch_unique hsel h2
    subst hab
    rw [registry_getElem? st hwf, hit] at hd
    simp only [Option.map_some', Option.some.injEq] at hd
    subst hd
    exact hok ⟨hk, hcount⟩

/-- C4, at the line `move a`: `move` expects two parameters. -/
theorem parameter_count_mismatch_witness :
    ∃ res, MidCLI_ProcessCommand exampleApp exampleState (bytes "move a") (fun _ => 0)
        exampleBuffer 100 = some res ∧
      handlerCalls res = [] ∧
      (∀ i, i < 100 → res.pcWriteBuffer i = msgIncorrectParameters.getD i 0) ∧
      (∀ i, 100 ≤ i → res.pcWriteBuffer i = exampleBuffer i) ∧
      res.xReturn = pdFALSE ∧ res.state.pxCommand = none ∧ res.state = exampleState :=
  parameter_count_mismatch exampleApp exampleState (bytes "move a") (fun _ => 0)
    exampleBuffer 100 (by decide) (by decide) (by decide) (by decide) 2 cmdMove
    (by decide) (by decide) (by decide) (by decide)

/-- C2 (parameter validation), at a failing input: `move` is registered with
two expected parameters and its name holds no space; the line `move` followed
by 258 parameters selects it from Idle and has 258 tokens after the name, not
2; the `int8_t` count of `prvGetNumberOfParameters` for it is 2, and
`MidCLI_ProcessCommand` calls the handler of `move`, the item at address 2. -/
theorem parameter_validation_counterexample :
    WF exampleState ∧ exampleState.pxCommand = none ∧ NoNul (moveLine 258) ∧
    (registry exampleState)[2]? = some cmdMove ∧ NoSpace cmdMove.pcCommand ∧
    cmdMove.cExpectedNumberOfParameters = 2 ∧
    IsFirstMatch (registry exampleState) (moveLine 258) 2 ∧
    (tokens ((moveLine 258).drop cmdMove.pcCommand.length)).length = 258 ∧
    prvGetNumberOfParameters (moveLine 258) = 2 ∧
    (MidCLI_ProcessCommand exampleApp exampleState (moveLine 258) (fun _ => 0)
      exampleBuffer 100).map (fun r => r.events.filterMap CLI_Event.invokedItem)
        = some [2] := by
  refine ⟨by decide, by decide, by decide!, by decide, by decide, by decide, by decide!,
    by decide!, by decide!, by decide!⟩

/-- Parameter validation up to the wrap of the counter: from Idle on a
well-formed state, for a selected command whose name holds no space and whose
expected parameter count `k` is an `int8_t` that is not negative,
`MidCLI_ProcessCommand` calls the handler of the command iff the number of
tokens after the name in the input line is `k` modulo 256, hence iff it is
exactly `k` whenever the line has fewer than 256 tokens after the name;
otherwise no handler is called, the result is `pdFALSE` and the
parameter-count error is written. -/
theorem parameter_validation_mod_256 {σ : Type} (app : AppHandlers σ) (st : CLI_State σ)
    (input : List Nat) (beyond : Nat → Nat) (buf : Nat → Nat) (cap : Nat)
    (hwf : WF st) (hidle : st.pxCommand = none) (hi : NoNul input)
    (hn : ∀ d ∈ registry st, NoNul d.pcCommand)
    (a : Nat) (d : CLI_Command_Definition_t)
    (hsel : IsFirstMatch (registry st) input a) (hd : (registry st)[a]? = some d)
    (hsp : NoSpace d.pcCommand)
    (hk0 : 0 ≤ d.cExpectedNumberOfParameters) (hk1 : d.cExpectedNumberOfParameters ≤ 127) :
    ∃ res, MidCLI_ProcessCommand app st input beyond buf cap = some res ∧
      (handlerCalls res = [CLI_Event.invoked a buf cap input] ↔
        (((tokens (input.drop d.pcCommand.length)).length % 256 : Nat) : Int)
          = d.cExpectedNumberOfParameters) ∧
      ((tokens (input.drop d.pcCommand.length)).length < 256 →
        (handlerCalls res = [CLI_Event.invoked a buf cap input] ↔
          ((tokens (input.drop d.pcCommand.length)).length : Int)
            = d.cExpectedNumberOfParameters)) ∧
      (handlerCalls res ≠ [CLI_Event.invoked a buf cap input] →
        handlerCalls res = [] ∧ res.xReturn = pdFALSE ∧
        ∀ i, i < cap → res.pcWriteBuffer i = msgIncorrectParameters.getD i 0) := by
  obtain ⟨r, res, hr, hres, hev, hcase⟩ := process_idle app st input beyond buf cap hwf hidle hi hn
  have hm : Matches d.pcCommand input := by
    obtain ⟨⟨e, he, hem⟩, _⟩ := hsel
    rw [hd] at he
    simp only [Option.mem_def, Option.some.injEq] at he
    subst he
    exact hem
  have hcount : prvGetNumberOfParameters input =
      wrapInt8 ((tokens (input.drop d.pcCommand.length)).length : Int) := by
    rw [prvGetNumberOfParameters_eq, countedTokens_of_matches d.pcCommand input hsp hm]
  have hmod := wrapInt8_eq_iff_mod (tokens (input.drop d.pcCommand.length)).length
    d.cExpectedNumberOfParameters hk0 hk1
  have hsmall : (tokens (input.drop d.pcCommand.length)).length < 256 →
      ((((tokens (input.drop d.pcCommand.length)).length % 256 : Nat) : Int)
          = d.cExpectedNumberOfParameters ↔
        ((tokens (input.drop d.pcCommand.length)).length : Int)
          = d.cExpectedNumberOfParameters) := by
    intro hlt
    rw [Nat.mod_eq_of_lt hlt]
  have hitem : ∀ b it, IsFirstMatch (registry st) input b → st.items[b]? = some it →
      b = a ∧ it.pxCommandLineDefinition = d := by
    intro b it hb hit
    have hab : a = b := isFirstMatch_unique hsel hb
    subst hab
    rw [registry_getElem? st hwf, hit] at hd
    simp only [Option.map_some', Option.some.injEq] at hd
    exact ⟨rfl, hd⟩
  rcases hcase with ⟨_, h2, _⟩ | ⟨b, it, _, h2, hit, hbad, h3⟩ |
    ⟨b, it, _, _, _, _, h2, hit, hok, _, h3⟩
  · exact absurd hm (h2 d (List.mem_iff_getElem?.mpr ⟨a, hd⟩))
  · obtain ⟨hba, hdef⟩ := hitem b it h2 hit
    subst hba
    rw [hdef, hcount, Ne, hmod] at hbad
    subst h3
    have hnil : handlerCalls (σ := σ)
        { xReturn := pdFALSE
          pcWriteBuffer := strncpy buf msgIncorrectParameters cap
          state := { st with pxCommand := none }
          events := r.2.2 } = [] := handlerCalls_none hev
    refine ⟨_, hres, ?_, ?_, ?_⟩
    · rw [hnil]
      exact ⟨fun h => (by cases h), fun h => absurd h hbad.2⟩
    · intro hlt
      rw [hnil, ← hsmall hlt]
      exact ⟨fun h => (by cases h), fun h => absurd h hbad.2⟩
    · intro _
      refine ⟨hnil, rfl, ?_⟩
      intro i hi
      simp only [strncpy, if_pos hi]
  · obtain ⟨hba, hdef⟩ := hitem b it h2 hit
    subst hba
    rw [hdef, hcount, Ne, hmod] at hok
    have heq : (((tokens (input.drop d.pcCommand.length)).length % 256 : Nat) : Int)
        = d.cExpectedNumberOfParameters := by
      by_contra hne
      exact hok ⟨hk0, hne⟩
    subst h3
    refine ⟨_, hres, ?_, ?_, ?_⟩
    all_goals have hone := handlerCalls_append hev b buf cap input
    all_goals unfold handlerCalls
    · exact ⟨fun _ => heq, fun _ => hone⟩
    · intro hlt
      exact ⟨fun _ => (hsmall hlt).mp heq, fun _ => hone⟩
    · intro hne
      exact absurd hone hne

/-- Parameter validation at the line `move a a`: the handler of `move` is called. -/
theorem parameter_validation_mod_256_witness :
    ∃ res, MidCLI_ProcessCommand exampleApp exampleState (bytes "move a a") (fun _ => 0)
        exampleBuffer 100 = some res ∧
      handlerCalls res = [CLI_Event.invoked 2 exampleBuffer 100 (bytes "move a a")] := by
  obtain ⟨res, hres, h1, _, _⟩ := parameter_validation_mod_256 exampleApp exampleState
    (bytes "move a a") (fun _ => 0) exampleBuffer 100 (by decide) (by decide) (by decide)
    (by decide) 2 cmdMove (by decide) (by decide) (by decide) (by decide) (by decide)
  exact ⟨res, hres, h1.mpr (by decide)⟩

/-- C5 (streaming exclusivity): on a well-formed state, when a call of
`MidCLI_ProcessCommand` returned a value other than `pdFALSE`, it called the
handler of one command and left that command active in a well-formed state;
the next call, whatever its input line, write buffer and length, returns and
does one thing only: it calls the handler of that same command with the line
supplied (no entry of the registry is examined and no parameter is counted),
returns what the handler returns, and keeps the command active iff that value
is not `pdFALSE`, so that the same holds of the call after it. -/
theorem streaming_exclusivity {σ : Type} (app : AppHandlers σ) (st : CLI_State σ)
    (input1 : List Nat) (beyond1 : Nat → Nat) (buf1 : Nat → Nat) (cap1 : Nat)
    (hwf : WF st) (res1 : CLI_Result σ)
    (hfirst : MidCLI_ProcessCommand app st input1 beyond1 buf1 cap1 = some res1)
    (hmore : res1.xReturn ≠ pdFALSE) :
    ∃ a it, handlerCalls res1 = [CLI_Event.invoked a buf1 cap1 input1] ∧
      res1.state.pxCommand = some a ∧ WF res1.state ∧
      res1.state.items[a]? = some it ∧
      ∀ (input2 : List Nat) (beyond2 : Nat → Nat) (buf2 : Nat → Nat) (cap2 : Nat),
        ∃ res2 ret out st2,
          MidCLI_ProcessCommand app res1.state input2 beyond2 buf2 cap2 = some res2 ∧
          callInterpreter app res1.state it.pxCommandLineDefinition.pxCommandInterpreter
            buf2 cap2 input2 = some (ret, out, st2) ∧
          res2.events = [CLI_Event.invoked a buf2 cap2 input2] ∧
          res2.xReturn = ret ∧ res2.pcWriteBuffer = out ∧
          (ret ≠ pdFALSE → res2.state.pxCommand = some a) ∧
          (ret = pdFALSE → res2.state.pxCommand = none) := by
  obtain ⟨hwf1, _, hcase⟩ := process_shape app st input1 beyond1 buf1 cap1 hwf res1 hfirst
  rcases hcase with ⟨h0, _⟩ | ⟨a, _, hact, hcalls⟩
  · exact absurd h0 hmore
  · obtain ⟨it, _, _, _, hit, _, _⟩ := process_streaming app res1.state input1 beyond1 buf1 cap1
      hwf1 a hact
    refine ⟨a, it, hcalls, hact, hwf1, hit, ?_⟩
    intro input2 beyond2 buf2 cap2
    obtain ⟨it2, ret, out, st2, hit2, hcall, hres2⟩ := process_streaming app res1.state
      input2 beyond2 buf2 cap2 hwf1 a hact
    rw [hit] at hit2
    cases hit2
    refine ⟨_, ret, out, st2, hres2, hcall, rfl, rfl, rfl, ?_, ?_⟩
    · intro hret
      dsimp only
      rw [if_neg hret]
    · intro hret
      dsimp only
      rw [if_pos hret]

/-- C5, at concrete lines: the handler of `status` asks to be called again, and
the next call, with the line `move a`, calls the handler of the same command. -/
theorem streaming_exclusivity_witness :
    ∃ res1, MidCLI_ProcessCommand exampleApp exampleState (bytes "status") (fun _ => 0)
        exampleBuffer 100 = some res1 ∧ res1.xReturn ≠ pdFALSE ∧
      ∃ a res2, handlerCalls res1 = [CLI_Event.invoked a exampleBuffer 100 (bytes "status")] ∧
        MidCLI_ProcessCommand exampleApp res1.state (bytes "move a") (fun _ => 0)
          exampleBuffer 100 = some res2 ∧
        res2.events = [CLI_Event.invoked a exampleBuffer 100 (bytes "move a")] := by
  refine ⟨_, rfl, by decide, ?_⟩
  obtain ⟨a, it, hcalls, _, _, _, hnext⟩ := streaming_exclusivity exampleApp exampleState
    (bytes "status") (fun _ => 0) exampleBuffer 100 (by decide) _ rfl (by decide)
  obtain ⟨res2, _, _, _, hres2, _, hev, _⟩ := hnext (bytes "move a") (fun _ => 0) exampleBuffer 100
  exact ⟨a, res2, hcalls, hres2, hev⟩

/-- C6 (tokenizer): for a command string that does not begin with a space and
an index `i` of at least 1, `MidCLI_GetParameter` returns the start and the
length of token `i` of the line, counting the command name as token 0 (tokens
are the maximal runs of non-space characters, in the order of the line), and
`NULL` with length 0 when the line has no token `i`. -/
theorem getParameter_is_token (s : List Nat) (i : Nat) (hs : s.head? ≠ some SPACE)
    (hi : 1 ≤ i) :
    MidCLI_GetParameter s i = tokenAt (tokens s) i ∧
      ((tokens s).length ≤ i → MidCLI_GetParameter s i = (none, 0)) ∧
      (∀ t, (tokens s)[i]? = some t →
        MidCLI_GetParameter s i = (some t.1, t.2) ∧ IsToken s t) := by
  obtain ⟨k, rfl⟩ : ∃ k, i = k + 1 := ⟨i - 1, by omega⟩
  have h := getParameter_loop_eq k s 0 hs
  have h0 : MidCLI_GetParameter s (k + 1) = tokenAt (tokens s) (k + 1) := h
  refine ⟨h0, ?_, ?_⟩
  · intro hlen
    rw [h0, tokenAt, List.getElem?_eq_none hlen]
  · intro t ht
    refine ⟨?_, tokens_isToken s t (List.mem_iff_getElem?.mpr ⟨k + 1, ht⟩)⟩
    rw [h0, tokenAt, ht]

/-- C6, at the lines of the specification: parameter 1 of `cmd  p1   p2` is
`p1`, at offset 5 with length 2, and `cmd p1 p2` has no parameter 3. -/
theorem getParameter_is_token_witness :
    MidCLI_GetParameter (bytes "cmd  p1   p2") 1 = (some 5, 2) ∧
    ((bytes "cmd  p1   p2").drop 5).take 2 = bytes "p1" ∧
    MidCLI_GetParameter (bytes "cmd p1 p2") 3 = (none, 0) :=
  ⟨((getParameter_is_token (bytes "cmd  p1   p2") 1 (by decide) (by decide)).2.2 (5, 2)
      (by decide)).1,
   by decide,
   (getParameter_is_token (bytes "cmd p1 p2") 3 (by decide) (by decide)).2.1 (by decide)⟩

/-- C7 as stated fails: the line ` a` has one token, so none after the first,
and `prvGetNumberOfParameters` returns 1; the line of 129 tokens has 128 after
the first, and `prvGetNumberOfParameters` returns -128. -/
theorem parameter_count_counterexample :
    (prvGetNumberOfParameters (bytes " a") = 1 ∧ (tokens (bytes " a")).length - 1 = 0) ∧
    (prvGetNumberOfParameters longLine = -128 ∧ (tokens longLine).length - 1 = 128) := by
  refine ⟨⟨by decide, by decide⟩, ⟨by decide!, by decide!⟩⟩

/-- C7, amended (parameter count): for a command string that does not begin
with a space and has at most 127 tokens after the first,
`prvGetNumberOfParameters` returns the number of tokens after the first token
(0 when there is at most one token); trailing spaces add nothing, as they make
no token. -/
theorem parameter_count_tokens (s : List Nat) (hs : s.head? ≠ some SPACE)
    (hmax : (tokens s).length - 1 ≤ 127) :
    prvGetNumberOfParameters s = (((tokens s).length - 1 : Nat) : Int) := by
  rw [prvGetNumberOfParameters_eq, countedTokens, if_neg hs]
  apply wrapInt8_of_inInt8
  unfold InInt8
  omega

/-- C7, amended, at the line `cmd  p1   p2  ` with trailing spaces. -/
theorem parameter_count_tokens_witness :
    prvGetNumberOfParameters (bytes "cmd  p1   p2  ")
      = (((tokens (bytes "cmd  p1   p2  ")).length - 1 : Nat) : Int) ∧
    (tokens (bytes "cmd  p1   p2  ")).length - 1 = 2 :=
  ⟨parameter_count_tokens (bytes "cmd  p1   p2  ") (by decide) (by decide), by decide⟩

/-- C9 (registration appends): on a well-formed state, when `pvPortMalloc`
succeeds, `MidCLI_RegisterCommand` returns `pdPASS` and the registry afterwards
is the registry before followed by the new definition, whatever the names
already registered; the state stays well formed and nothing but the list
changes. -/
theorem register_appends {σ : Type} (st : CLI_State σ) (d : CLI_Command_Definition_t)
    (hwf : WF st) :
    (MidCLI_RegisterCommand st d true).1 = pdPASS ∧
      registry (MidCLI_RegisterCommand st d true).2 = registry st ++ [d] ∧
      WF (MidCLI_RegisterCommand st d true).2 ∧
      (MidCLI_RegisterCommand st d true).2.pxCommand = st.pxCommand ∧
      (MidCLI_RegisterCommand st d true).2.prvHelpCommand_pxCommand
        = st.prvHelpCommand_pxCommand ∧
      (MidCLI_RegisterCommand st d true).2.appState = st.appState :=
  ⟨rfl, registry_register st hwf d, WF_register st hwf d, rfl, rfl, rfl⟩

/-- C9, at a registry that already holds the name `status`. -/
theorem register_appends_witness :
    (MidCLI_RegisterCommand exampleState cmdStatus true).1 = pdPASS ∧
      registry (MidCLI_RegisterCommand exampleState cmdStatus true).2
        = [xHelpCommand, cmdStatus, cmdMove, cmdStatusAgain, cmdStatus] := by
  have h := register_appends exampleState cmdStatus (by decide)
  refine ⟨h.1, ?_⟩
  rw [h.2.1]
  decide

/-- C10 (unchecked parameter count): from Idle on a well-formed state, when the
selected command has the expected parameter count -1, `MidCLI_ProcessCommand`
calls its handler exactly once, with the input line, the write buffer and the
buffer length it was given, whatever the number of parameters in the line, and
returns the value and leaves the buffer that the handler returns. -/
theorem unchecked_parameter_count {σ : Type} (app : AppHandlers σ) (st : CLI_State σ)
    (input : List Nat) (beyond : Nat → Nat) (buf : Nat → Nat) (cap : Nat)
    (hwf : WF st) (hidle : st.pxCommand = none) (hi : NoNul input)
    (hn : ∀ d ∈ registry st, NoNul d.pcCommand)
    (a : Nat) (d : CLI_Command_Definition_t)
    (hsel : IsFirstMatch (registry st) input a) (hd : (registry st)[a]? = some d)
    (hk : d.cExpectedNumberOfParameters = -1) :
    ∃ res ret out st1,
      MidCLI_ProcessCommand app st input beyond buf cap = some res ∧
      callInterpreter app { st with pxCommand := some a } d.pxCommandInterpreter
        buf cap input = some (ret, out, st1) ∧
      handlerCalls res = [CLI_Event.invoked a buf cap input] ∧
      res.xReturn = ret ∧ res.pcWriteBuffer = out := by
  obtain ⟨r, res, hr, hres, hev, hcase⟩ := process_idle app st input beyond buf cap hwf hidle hi hn
  have hitem : ∀ b it, IsFirstMatch (registry st) input b → st.items[b]? = some it →
      b = a ∧ it.pxCommandLineDefinition = d := by
    intro b it hb hit
    have hab : a = b := isFirstMatch_unique hsel hb
    subst hab
    rw [registry_getElem? st hwf, hit] at hd
    simp only [Option.map_some', Option.some.injEq] at hd
    exact ⟨rfl, hd⟩
  rcases hcase with ⟨_, h2, _⟩ | ⟨b, it, _, h2, hit, hbad, _⟩ |
    ⟨b, it, ret, out, st1, _, h2, hit, _, hcall, h3⟩
  · obtain ⟨⟨e, he, hem⟩, _⟩ := hsel
    exact absurd hem (h2 e (List.mem_iff_getElem?.mpr ⟨a, he⟩))
  · obtain ⟨_, hdef⟩ := hitem b it h2 hit
    rw [hdef, hk] at hbad
    exact absurd hbad.1 (by decide)
  · obtain ⟨hba, hdef⟩ := hitem b it h2 hit
    subst hba
    subst h3
    rw [hdef] at hcall
    exact ⟨_, ret, out, st1, hres, hcall, handlerCalls_append hev b buf cap input, rfl, rfl⟩

/-- C10, at the line `status x y z`: the handler of `status` is called once and
its return value `pdTRUE` is the result. -/
theorem unchecked_parameter_count_witness :
    ∃ res, MidCLI_ProcessCommand exampleApp exampleState (bytes "status x y z") (fun _ => 0)
        exampleBuffer 100 = some res ∧
      handlerCalls res = [CLI_Event.invoked 1 exampleBuffer 100 (bytes "status x y z")] ∧
      res.xReturn = pdTRUE := by
  obtain ⟨res, ret, out, st1, hres, hcall, hcalls, hret, _⟩ :=
    unchecked_parameter_count exampleApp exampleState (bytes "status x y z") (fun _ => 0)
      exampleBuffer 100 (by decide) (by decide) (by decide) (by decide) 1 cmdStatus
      (by decide) (by decide) (by decide)
  refine ⟨res, hres, hcalls, ?_⟩
  rw [hret]
  have h : some (ret, out, st1) = some (pdTRUE, _, _) := hcall.symm.trans rfl
  injection h with h
  injection h

/-- C8 (help streaming sequence): on a well-formed state whose registry has `n`
entries, the first of them the built-in help command, and whose help cursor is
reset, `n + 1` consecutive calls of `prvHelpCommand` all return; call `k`
(from 1 to `n`) copies the help text of entry `k` of the registry, in
registration order, into the write buffer of that call and returns `pdTRUE`
iff `k < n`, otherwise `pdFALSE`; after call `n` the state is the initial one
again, the cursor reset; and call `n + 1` copies the help text of the help
command itself. -/
theorem help_streaming_sequence {σ : Type} (st : CLI_State σ)
    (args : List ((Nat → Nat) × Nat × List Nat))
    (hwf : WF st) (hreset : st.prvHelpCommand_pxCommand = none)
    (hhead : (registry st).head? = some xHelpCommand)
    (hlen : args.length = (registry st).length + 1) :
    0 < (registry st).length ∧
    ∃ st1 outs, helpRun st args = some (st1, outs) ∧
      (∀ k x d, k < (registry st).length → args[k]? = some x →
        (registry st)[k]? = some d →
        outs[k]? = some (if k + 1 < (registry st).length then pdTRUE else pdFALSE,
                         strncpy x.1 d.pcHelpString x.2.1)) ∧
      (∃ outsN, helpRun st (args.take (registry st).length) = some (st, outsN)) ∧
      (∀ x, args[(registry st).length]? = some x →
        ∃ ret, outs[(registry st).length]? =
          some (ret, strncpy x.1 xHelpCommand.pcHelpString x.2.1)) := by
  have hn : (registry st).length = st.items.length := registry_length st hwf
  have hpos : 0 < st.items.length := hwf.1
  have hst : ∀ m, m % st.items.length = 0 →
      ({ st with prvHelpCommand_pxCommand := helpCursor ((0 + m) % st.items.length) }
        : CLI_State σ) = st := by
    intro m hm
    rw [Nat.zero_add, hm]
    cases st
    simp only at hreset
    subst hreset
    rfl
  obtain ⟨outs, hrun, _, houts⟩ := helpRun_spec args st 0 hwf hpos hreset
  obtain ⟨outsN, hrunN, _, _⟩ := helpRun_spec (args.take (registry st).length) st 0 hwf hpos
    hreset
  have htake : (args.take (registry st).length).length = st.items.length := by
    rw [List.length_take, hlen, hn]
    omega
  rw [htake, hst _ (Nat.mod_self _)] at hrunN
  refine ⟨by omega, _, outs, hrun, ?_, ⟨outsN, hrunN⟩, ?_⟩
  · intro k x d hk hx hd
    rw [hn] at hk ⊢
    have h := houts k x d hx
    rw [Nat.zero_add, Nat.mod_eq_of_lt hk] at h
    exact h hd
  · intro x hx
    rw [hn] at hx ⊢
    have hd : (registry st)[(0 + st.items.length) % st.items.length]? = some xHelpCommand := by
      rw [Nat.zero_add, Nat.mod_self]
      rw [List.head?_eq_getElem?] at hhead
      exact hhead
    exact ⟨_, houts st.items.length x xHelpCommand hx hd⟩

/-- C8, at the registry `[help, status, move]`: the calls yield the text of
`help` and `pdTRUE`, the text of `status` (into a buffer of length 8) and
`pdTRUE`, the text of `move` and `pdFALSE`. -/
theorem help_streaming_sequence_witness :
    registry helpState = [xHelpCommand, cmdStatus, cmdMove] ∧
    ∃ st1 outs, helpRun helpState exampleArgs = some (st1, outs) ∧
      outs[0]? = some (pdTRUE, strncpy exampleBuffer xHelpCommand.pcHelpString 100) ∧
      outs[1]? = some (pdTRUE, strncpy exampleBuffer cmdStatus.pcHelpString 8) ∧
      outs[2]? = some (pdFALSE, strncpy (fun _ => 0) cmdMove.pcHelpString 100) := by
  obtain ⟨_, st1, outs, hrun, h, _, _⟩ := help_streaming_sequence helpState exampleArgs
    (by decide) (by decide) (by decide) (by decide)
  exact ⟨by decide, st1, outs, hrun,
    h 0 (exampleBuffer, 100, bytes "help") xHelpCommand (by decide) rfl (by decide),
    h 1 (exampleBuffer, 8, []) cmdStatus (by decide) rfl (by decide),
    h 2 (fun _ => 0, 100, bytes "x") cmdMove (by decide) rfl (by decide)⟩

/-- C11 (trailing spaces): for every command string `s` and every `k`,
`prvGetNumberOfParameters` returns for `s` followed by `k` spaces what it
returns for `s`. -/
theorem trailing_spaces_not_counted (s : List Nat) (k : Nat) :
    prvGetNumberOfParameters (s ++ List.replicate k SPACE) = prvGetNumberOfParameters s := by
  rw [prvGetNumberOfParameters_eq, prvGetNumberOfParameters_eq, countedTokens_append_spaces]

/-- C16 as stated fails: the first token of the line `cmd p1` is the command
name `cmd`, of length 3 at offset 0, and `MidCLI_GetParameter` called with the
wanted index 0 returns `NULL` and the length 0. -/
theorem getParameter_index_zero_counterexample :
    (tokens (bytes "cmd p1"))[0]? = some (0, 3) ∧
    MidCLI_GetParameter (bytes "cmd p1") 0 = (none, 0) ∧
    MidCLI_GetParameter (bytes "cmd p1") 0 ≠ (some 0, 3) := by
  refine ⟨by decide, by decide, by decide⟩

/-- C16, amended (index 0 of the tokenizer): for every command string,
`MidCLI_GetParameter` called with the wanted index 0 finds nothing: it returns
`NULL` and reports the length 0; the command name is not returned. -/
theorem getParameter_index_zero (s : List Nat) :
    MidCLI_GetParameter s 0 = (none, 0) := rfl

/-- C19 (tokenizer and counter agree): for a command string that does not begin
with a space and has at most 127 tokens after the first, and for an index `i`
of at least 1, `MidCLI_GetParameter` finds a parameter (returns a pointer that
is not `NULL`) iff `i` is at most what `prvGetNumberOfParameters` returns. -/
theorem getParameter_found_iff_counted (s : List Nat) (i : Nat)
    (hs : s.head? ≠ some SPACE) (hmax : (tokens s).length - 1 ≤ 127) (hi : 1 ≤ i) :
    (MidCLI_GetParameter s i).1 ≠ none ↔ (i : Int) ≤ prvGetNumberOfParameters s := by
  obtain ⟨k, rfl⟩ : ∃ k, i = k + 1 := ⟨i - 1, by omega⟩
  have h0 : MidCLI_GetParameter s (k + 1) = tokenAt (tokens s) (k + 1) :=
    getParameter_loop_eq k s 0 hs
  have hcount : prvGetNumberOfParameters s = (((tokens s).length - 1 : Nat) : Int) := by
    rw [prvGetNumberOfParameters_eq, countedTokens, if_neg hs]
    apply wrapInt8_of_inInt8
    unfold InInt8
    omega
  rw [h0, hcount, tokenAt]
  by_cases hlt : k + 1 < (tokens s).length
  · rw [List.getElem?_eq_getElem hlt]
    constructor
    · intro _; omega
    · intro _ h; cases h
  · rw [List.getElem?_eq_none (by omega)]
    constructor
    · intro h; exact absurd rfl h
    · intro h; omega

/-- C19, at the line `cmd p1 p2` with its two parameters: parameter 2 is found
and parameter 3 is not. -/
theorem getParameter_found_iff_counted_witness :
    prvGetNumberOfParameters (bytes "cmd p1 p2") = 2 ∧
    (MidCLI_GetParameter (bytes "cmd p1 p2") 2).1 ≠ none ∧
    ¬ (MidCLI_GetParameter (bytes "cmd p1 p2") 3).1 ≠ none :=
  ⟨by decide,
   (getParameter_found_iff_counted (bytes "cmd p1 p2") 2 (by decide) (by decide)
      (by decide)).mpr (by decide),
   fun h => absurd ((getParameter_found_iff_counted (bytes "cmd p1 p2") 3 (by decide)
      (by decide) (by decide)).mp h) (by decide)⟩

/-- C12 (dispatcher state invariant): in every reachable state, for every input
line, write buffer and behaviour of the handlers, a call of
`MidCLI_ProcessCommand` returns, and afterwards a command is active iff the
call returned a value other than `pdFALSE`; the active command is then the one
whose handler the call invoked, and the call invoked no other; a call that
invoked no handler (not found, wrong parameter count) returned `pdFALSE`, and
after every call that returned `pdFALSE` no command is active. -/
theorem dispatcher_state_invariant {σ : Type} (app : AppHandlers σ) (s0 : σ)
    (st : CLI_State σ) (input : List Nat) (beyond : Nat → Nat) (buf : Nat → Nat) (cap : Nat)
    (hreach : Reachable app s0 st) :
    ∃ res, MidCLI_ProcessCommand app st input beyond buf cap = some res ∧
      (res.state.pxCommand ≠ none ↔ res.xReturn ≠ pdFALSE) ∧
      (∀ a, res.state.pxCommand = some a →
        handlerCalls res = [CLI_Event.invoked a buf cap input]) ∧
      (handlerCalls res = [] → res.xReturn = pdFALSE) ∧
      (res.xReturn = pdFALSE → res.state.pxCommand = none) := by
  have hwf := hreach.wf
  obtain ⟨res, hres⟩ := process_total app st hwf input beyond buf cap
  obtain ⟨_, _, hcase⟩ := process_shape app st input beyond buf cap hwf res hres
  refine ⟨res, hres, ?_⟩
  rcases hcase with ⟨h0, hidle⟩ | ⟨a, hne, hact, hcalls⟩
  · refine ⟨?_, ?_, fun _ => h0, fun _ => hidle⟩
    · rw [hidle, h0]
      exact ⟨fun h => absurd rfl h, fun h => absurd rfl h⟩
    · intro a ha
      rw [hidle] at ha
      cases ha
  · refine ⟨?_, ?_, ?_, fun h => absurd h hne⟩
    · rw [hact]
      exact ⟨fun _ => hne, fun _ h => by cases h⟩
    · intro b hb
      rw [hact] at hb
      cases hb
      exact hcalls
    · intro h
      rw [hcalls] at h
      cases h

/-- C12, in the state reached by the line `status`, whose handler asks to be
called again: after the next call, with the line `move a`, the command is
still active. -/
theorem dispatcher_state_invariant_witness :
    ∃ res1, MidCLI_ProcessCommand exampleApp exampleState (bytes "status") (fun _ => 0)
        exampleBuffer 100 = some res1 ∧
      ∃ res, MidCLI_ProcessCommand exampleApp res1.state (bytes "move a") (fun _ => 0)
          exampleBuffer 100 = some res ∧
        (res.state.pxCommand ≠ none ↔ res.xReturn ≠ pdFALSE) := by
  have h0 : Reachable exampleApp 0 exampleState :=
    Reachable.register _ _ _ (Reachable.register _ _ _ (Reachable.register _ _ _
      Reachable.init (by decide)) (by decide)) (by decide)
  refine ⟨_, rfl, ?_⟩
  obtain ⟨res, hres, h, _⟩ := dispatcher_state_invariant exampleApp 0 _ (bytes "move a")
    (fun _ => 0) exampleBuffer 100
    (Reachable.process exampleState (bytes "status") (fun _ => 0) exampleBuffer 100 _ h0 rfl)
  exact ⟨res, hres, h⟩

/-- C13 (registry invariant): after every sequence of calls of
`MidCLI_RegisterCommand` from the initial state, whether their allocations
succeed or not, the registry is not empty and its head is the built-in help
command; and the registry after a sequence of calls is a prefix of the registry
after every longer sequence that continues it. -/
theorem registry_invariant {σ : Type} (s0 : σ)
    (calls later : List (CLI_Command_Definition_t × Bool)) :
    registry (registerAll (initialState s0) calls) ≠ [] ∧
    (registry (registerAll (initialState s0) calls)).head? = some xHelpCommand ∧
    registry (registerAll (initialState s0) calls) <+:
      registry (registerAll (initialState s0) (calls ++ later)) := by
  have h1 := registry_registerAll calls (initialState s0) (WF_initialState s0)
  have h2 := registry_registerAll later (registerAll (initialState s0) calls)
    (WF_registerAll calls _ (WF_initialState s0))
  rw [registry_initialState] at h1
  refine ⟨?_, ?_, ?_⟩
  · rw [h1]; simp
  · rw [h1]; rfl
  · rw [registerAll_append, h2]
    exact List.prefix_append _ _

/-- C14 (writes are truncated to the capacity): on a well-formed state, for
every capacity `c` and buffer, each built-in write leaves the buffer with the
first `min |m| c` bytes of its message `m`, zeros from there up to `c - 1`, and
the bytes from `c` on unchanged: the not-found message when no name matches
from Idle, the parameter error message when the selected command expects
another count, and the help string of an entry of the registry when
`prvHelpCommand` is called. -/
theorem builtin_writes_truncated {σ : Type} (app : AppHandlers σ) (st : CLI_State σ)
    (input : List Nat) (beyond : Nat → Nat) (buf : Nat → Nat) (c : Nat)
    (hwf : WF st) (hi : NoNul input) (hn : ∀ d ∈ registry st, NoNul d.pcCommand) :
    (st.pxCommand = none → (∀ d ∈ registry st, ¬ Matches d.pcCommand input) →
      ∃ res, MidCLI_ProcessCommand app st input beyond buf c = some res ∧
        TruncatedWrite buf msgNotRecognised c res.pcWriteBuffer) ∧
    (st.pxCommand = none → ∀ a d, IsFirstMatch (registry st) input a →
      (registry st)[a]? = some d → 0 ≤ d.cExpectedNumberOfParameters →
      prvGetNumberOfParameters input ≠ d.cExpectedNumberOfParameters →
      ∃ res, MidCLI_ProcessCommand app st input beyond buf c = some res ∧
        TruncatedWrite buf msgIncorrectParameters c res.pcWriteBuffer) ∧
    (∃ ret out st1 d, prvHelpCommand st buf c input = some (ret, out, st1) ∧
      d ∈ registry st ∧ TruncatedWrite buf d.pcHelpString c out) := by
  refine ⟨?_, ?_, ?_⟩
  · intro hidle hnone
    obtain ⟨r, res, _, hres, _, hcase⟩ := process_idle app st input beyond buf c hwf hidle hi hn
    rcases hcase with ⟨_, _, h3⟩ | ⟨b, _, _, h2, _⟩ | ⟨b, _, _, _, _, _, h2, _⟩
    · subst h3
      exact ⟨_, hres, strncpy_truncatedWrite _ _ _⟩
    · obtain ⟨⟨d, hd, hdm⟩, _⟩ := h2
      exact absurd hdm (hnone d (List.mem_iff_getElem?.mpr ⟨b, hd⟩))
    · obtain ⟨⟨d, hd, hdm⟩, _⟩ := h2
      exact absurd hdm (hnone d (List.mem_iff_getElem?.mpr ⟨b, hd⟩))
  · intro hidle a d hsel hd hk hcount
    obtain ⟨r, res, _, hres, _, hcase⟩ := process_idle app st input beyond buf c hwf hidle hi hn
    rcases hcase with ⟨_, h2, _⟩ | ⟨b, it, _, h2, hit, _, h3⟩ |
      ⟨b, it, _, _, _, _, h2, hit, hok, _⟩
    · obtain ⟨⟨e, he, hem⟩, _⟩ := hsel
      exact absurd hem (h2 e (List.mem_iff_getElem?.mpr ⟨a, he⟩))
    · subst h3
      exact ⟨_, hres, strncpy_truncatedWrite _ _ _⟩
    · exfalso
      have hab : a = b := isFirstMatch_unique hsel h2
      subst hab
      rw [registry_getElem? st hwf, hit] at hd
      simp only [Option.map_some', Option.some.injEq] at hd
      subst hd
      exact hok ⟨hk, hcount⟩
  · obtain ⟨ret, st1, d, hd, hcall⟩ := prvHelpCommand_write st hwf buf c input
    exact ⟨ret, _, st1, d, hcall, hd, strncpy_truncatedWrite _ _ _⟩

/-- C14, at the line `statusx` and a buffer of capacity 10: the first 10 bytes
of the buffer are the first 10 bytes of the not-found message, and the byte at
offset 10 is the one that was there. -/
theorem builtin_writes_truncated_witness :
    ∃ res, MidCLI_ProcessCommand exampleApp exampleState (bytes "statusx") (fun _ => 0)
        exampleBuffer 10 = some res ∧
      firstBytes res.pcWriteBuffer 10 = bytes "Command no" ∧
      res.pcWriteBuffer 10 = exampleBuffer 10 := by
  obtain ⟨res, hres, h1, _, h3⟩ := (builtin_writes_truncated exampleApp exampleState
    (bytes "statusx") (fun _ => 0) exampleBuffer 10 (by decide) (by decide) (by decide)).1
    (by decide) (by decide)
  refine ⟨res, hres, ?_, h3 10 (Nat.le_refl _)⟩
  apply List.ext_getElem?
  intro i
  by_cases hi : i < 10
  · have h := h1 i (by
      have : msgNotRecognised.length = 79 := by decide
      omega)
    have hmsg : msgNotRecognised[i]? = (bytes "Command no")[i]? := by
      interval_cases i <;> decide
    rw [← hmsg, h]
    simp [firstBytes, hi]
  · have h10 : (bytes "Command no").length = 10 := by decide
    rw [List.getElem?_eq_none (by simp [firstBytes]; omega),
      List.getElem?_eq_none (by omega)]

/-- C15 as stated fails: no fixed margin from the end of the buffer decides the
result.  A cursor 160 bytes into a buffer of capacity 200 and a cursor 20 bytes
into a buffer of capacity 60 are both 40 bytes from the end; the check is true
for the first and false for the second. -/
theorem writePointCheck_counterexample :
    ((0 : Int) ≤ 160 ∧ (160 : Int) < 0 + 200 ∧ (0 : Int) + 200 - 160 = 40 ∧
      mid_CliWritePointCheck 0 160 = true) ∧
    ((0 : Int) ≤ 20 ∧ (20 : Int) < 0 + 60 ∧ (0 : Int) + 60 - 20 = 40 ∧
      mid_CliWritePointCheck 0 20 = false) ∧
    ¬ ∃ margin : Int, ∀ N cOutputBuffer pCurrent : Int,
        cOutputBuffer ≤ pCurrent → pCurrent < cOutputBuffer + N →
        (mid_CliWritePointCheck cOutputBuffer pCurrent = true ↔
          cOutputBuffer + N - pCurrent ≤ margin) := by
  refine ⟨by decide, by decide, ?_⟩
  rintro ⟨margin, h⟩
  have h1 := (h 200 0 160 (by decide) (by decide)).mp (by decide)
  have h2 := (h 60 0 20 (by decide) (by decide)).mpr (by omega)
  exact absurd h2 (by decide)

/-- C15, amended (output buffer guard): for an output buffer of capacity `N`
and a write cursor inside it, `mid_CliWritePointCheck` returns true exactly
when the cursor is more than 50 bytes past the base of the buffer, that is,
when fewer than `N - 50` bytes lie between the cursor and the end; the
distance from the end at which the result changes depends on the capacity. -/
theorem writePointCheck_distance_from_base (N cOutputBuffer pCurrent : Int)
    (hlo : cOutputBuffer ≤ pCurrent) (_hhi : pCurrent < cOutputBuffer + N) :
    (mid_CliWritePointCheck cOutputBuffer pCurrent = true ↔ 50 < pCurrent - cOutputBuffer) ∧
    (mid_CliWritePointCheck cOutputBuffer pCurrent = true ↔
      cOutputBuffer + N - pCurrent < N - 50) := by
  have h : mid_CliWritePointCheck cOutputBuffer pCurrent = true ↔
      50 < pCurrent - cOutputBuffer := by
    unfold mid_CliWritePointCheck
    rw [decide_eq_true_iff]
    omega
  exact ⟨h, h.trans (by omega)⟩

/-- C15, amended, at a buffer of capacity 100 at the address 1000 and the
cursor 60 bytes into it. -/
theorem writePointCheck_distance_from_base_witness :
    mid_CliWritePointCheck 1000 1060 = true :=
  (writePointCheck_distance_from_base 100 1000 1060 (by decide) (by decide)).1.mpr
    (by decide)

/-- C17 (in-bounds scan), at failing inputs: the registered names are not
empty; for the empty line and the registry `[help]`, the search from Idle reads
the input at index 4, past the terminator at index 0; for the line `hi` and the
registry `[help, status, move, status]` it reads the input at the indices 4, 6,
4 and 6, all past the terminator at index 2. -/
theorem scan_reads_past_terminator :
    (∀ d ∈ registry (initialState (0 : Nat)), d.pcCommand ≠ []) ∧
    (initialState (0 : Nat)).pxCommand = none ∧
    (MidCLI_ProcessCommand.search (initialState (0 : Nat)) [] (fun _ => 0)).map
      (fun r => boundaryReads (initialState (0 : Nat)).items r.2.2) = some [4] ∧
    ([] : List Nat).length = 0 ∧
    (∀ d ∈ registry exampleState, d.pcCommand ≠ []) ∧
    exampleState.pxCommand = none ∧ NoNul (bytes "hi") ∧
    (MidCLI_ProcessCommand.search exampleState (bytes "hi") (fun _ => 0)).map
      (fun r => boundaryReads exampleState.items r.2.2) = some [4, 6, 4, 6] ∧
    (bytes "hi").length = 2 := by
  refine ⟨by decide, by decide, by decide, by decide, by decide, by decide, by decide,
    by decide, by decide⟩

/-- C20 (terminated output), at failing inputs: with a write buffer of capacity
10 the not-found message leaves `Command no` and the parameter error message
leaves `Incorrect ` in the first 10 bytes, and with a capacity of 8
`prvHelpCommand` leaves the first 8 bytes of the help text of `help`; none of
these holds a NUL, although the buffer held only NULs before. -/
theorem output_not_terminated :
    ((MidCLI_ProcessCommand exampleApp exampleState (bytes "statusx") (fun _ => 0)
        (fun _ => 0) 10).map (fun r => firstBytes r.pcWriteBuffer 10)
      = some (bytes "Command no") ∧ NoNul (bytes "Command no")) ∧
    ((MidCLI_ProcessCommand exampleApp exampleState (bytes "move a") (fun _ => 0)
        (fun _ => 0) 10).map (fun r => firstBytes r.pcWriteBuffer 10)
      = some (bytes "Incorrect ") ∧ NoNul (bytes "Incorrect ")) ∧
    ((prvHelpCommand helpState (fun _ => 0) 8 []).map (fun r => firstBytes r.2.1 8)
      = some (bytes "\r\nhelp:\r") ∧ NoNul (bytes "\r\nhelp:\r")) := by
  refine ⟨⟨by decide, by decide⟩, ⟨by decide, by decide⟩, ⟨by decide, by decide⟩⟩

/-- C18 (help cursor and dispatcher stay in step): in every reachable state, if
the cursor of `prvHelpCommand` is not reset then the active command of the
dispatcher is the item at the head of the list, which is the built-in help
entry; hence when the dispatcher is Idle the cursor is reset, and the line
`help` entered from Idle calls the help handler, which writes the help text of
the help command itself. -/
theorem help_cursor_in_step {σ : Type} (app : AppHandlers σ) (s0 : σ) (st : CLI_State σ)
    (hreach : Reachable app s0 st) :
    (st.prvHelpCommand_pxCommand ≠ none →
      st.pxCommand = some 0 ∧ (registry st)[0]? = some xHelpCommand) ∧
    (st.pxCommand = none → st.prvHelpCommand_pxCommand = none) ∧
    (st.pxCommand = none → ∀ (beyond : Nat → Nat) (buf : Nat → Nat) (cap : Nat),
      ∃ res, MidCLI_ProcessCommand app st (bytes "help") beyond buf cap = some res ∧
        handlerCalls res = [CLI_Event.invoked 0 buf cap (bytes "help")] ∧
        res.pcWriteBuffer = strncpy buf xHelpCommand.pcHelpString cap) := by
  have hinv := hreach.helpInv
  obtain ⟨hwf, hhead, _, hcur⟩ := hinv
  have hreset : st.pxCommand = none → st.prvHelpCommand_pxCommand = none := by
    intro hidle
    by_contra hne
    have := hcur hne
    rw [hidle] at this
    cases this
  refine ⟨?_, hreset, ?_⟩
  · intro hne
    refine ⟨hcur hne, ?_⟩
    rw [registry_getElem? st hwf]
    exact hhead
  · intro hidle beyond buf cap
    exact help_from_idle app st hreach.helpInv hidle (hreset hidle) beyond buf cap

/-- C18, in the state reached from `[help, status, move, status]` by the line
`help`: the help cursor is at the second item and the active command is the
help entry. -/
theorem help_cursor_in_step_witness :
    ∃ res1, MidCLI_ProcessCommand exampleApp exampleState (bytes "help") (fun _ => 0)
        exampleBuffer 100 = some res1 ∧
      res1.state.prvHelpCommand_pxCommand = some 1 ∧
      res1.state.pxCommand = some 0 ∧ (registry res1.state)[0]? = some xHelpCommand := by
  have h0 : Reachable exampleApp 0 exampleState :=
    Reachable.register _ _ _ (Reachable.register _ _ _ (Reachable.register _ _ _
      Reachable.init (by decide)) (by decide)) (by decide)
  refine ⟨_, rfl, by decide, ?_⟩
  exact (help_cursor_in_step exampleApp 0 _
    (Reachable.process exampleState (bytes "help") (fun _ => 0) exampleBuffer 100 _ h0 rfl)).1
    (by decide)

end MidCLI

